import Mathlib

/-!
Shallow embedding of the updater_zero repository's snapshot/diff/package/apply
engine and version-chain resolver, together with theorems settling the
specification's claims against the embedded code.

Conventions used throughout:
* Python dicts become association lists (`List (String × String)`), with a
  `Nodup`-keys hypothesis where a claim needs the dict key-uniqueness invariant.
* Filesystem paths handled by the appliers become component lists
  (`List String`), rooted at the process working directory.
* Fallible Python code becomes `Except`-valued functions; an exception that a
  caller lets propagate is an `Except.error` result.
-/

namespace UpdaterZero

/-- Python `str.split(sep)` for a one-character separator, over the string's
character list: splitting keeps empty fields, and splitting the empty string
yields one empty field, exactly as in Python. -/
def splitOnChar (sep : Char) : List Char → List (List Char)
  | [] => [[]]
  | x :: xs =>
    let r := splitOnChar sep xs
    if x = sep then [] :: r
    else
      match r with
      | [] => [[x]]
      | g :: gs => (x :: g) :: gs

/-- ASCII whitespace accepted around a Python `int` literal. -/
def isPyWs (c : Char) : Bool :=
  c = ' ' || c = '\t' || c = '\n' || c = '\r' || c = '\x0b' || c = '\x0c'

/-- Strip leading and trailing whitespace from a character list. -/
def trimWs (cs : List Char) : List Char :=
  ((cs.dropWhile isPyWs).reverse.dropWhile isPyWs).reverse

/-- A nonempty all-digit character list as a natural number. -/
def digitsToNat (cs : List Char) : Option Nat :=
  if cs.isEmpty then none
  else if cs.all Char.isDigit then
    some (cs.foldl (fun acc c => acc * 10 + (c.toNat - 48)) 0)
  else none

/-- Models Python `int(s)` on the numeral shapes reachable from the updater's
version strings: optional surrounding whitespace, an optional sign, then plain
decimal digits (used by `version_to_tuple` in `updater.py`). -/
def parsePyInt (cs : List Char) : Option Int :=
  match trimWs cs with
  | '-' :: ds => (digitsToNat ds).map (fun n => -(n : Int))
  | '+' :: ds => (digitsToNat ds).map (fun n => (n : Int))
  | ds => (digitsToNat ds).map (fun n => (n : Int))

/-- `updater.py`, `version_to_tuple`: split the version on dots and map `int`
over the components; any parse failure makes the whole call fall back
to `(0, 0, 0)`. -/
def version_to_tuple (version : String) : List Int :=
  let comps := (splitOnChar '.' version.data).map parsePyInt
  if comps.all Option.isSome then comps.map (fun o => o.getD 0) else [0, 0, 0]

/-- Python `<` on int tuples: lexicographic; a strict prefix is smaller. -/
def tupLt : List Int → List Int → Bool
  | [], [] => false
  | [], _ :: _ => true
  | _ :: _, [] => false
  | a :: xs, b :: ys => a < b || (a == b && tupLt xs ys)

/-- Python `<=` on int tuples: lexicographic; a prefix is `<=` its extensions. -/
def tupLe : List Int → List Int → Bool
  | [], _ => true
  | _ :: _, [] => false
  | a :: xs, b :: ys => a < b || (a == b && tupLe xs ys)

theorem tupLt_irrefl (x : List Int) : tupLt x x = false := by
  induction x with
  | nil => rfl
  | cons a xs ih => simp [tupLt, ih]

theorem tupLe_refl (x : List Int) : tupLe x x = true := by
  induction x with
  | nil => rfl
  | cons a xs ih => simp [tupLe, ih]

/-- On int tuples, Python's `x <= y` agrees with `not (y < x)`: the order is total. -/
theorem tupLe_eq_not_tupLt (x y : List Int) : tupLe x y = !tupLt y x := by
  induction x generalizing y with
  | nil => cases y <;> rfl
  | cons a xs ih =>
    cases y with
    | nil => rfl
    | cons b ys =>
      simp only [tupLe, tupLt, ih, Bool.not_or, Bool.not_and]
      by_cases hab : a < b
      · have hba : ¬ b < a := by omega
        have hne : ¬ b = a := by omega
        simp [hab, hba, hne]
      · by_cases hba : b < a
        · have hne : a ≠ b := by omega
          simp [hab, hba, hne]
        · have heq : a = b := by omega
          simp [hab, hba, heq]

theorem tupLt_trans {x y z : List Int} (h₁ : tupLt x y = true)
    (h₂ : tupLt y z = true) : tupLt x z = true := by
  induction x generalizing y z with
  | nil =>
    cases y with
    | nil => simp [tupLt] at h₁
    | cons b ys =>
      cases z with
      | nil => simp [tupLt] at h₂
      | cons c zs => rfl
  | cons a xs ih =>
    cases y with
    | nil => simp [tupLt] at h₁
    | cons b ys =>
      cases z with
      | nil => simp [tupLt] at h₂
      | cons c zs =>
        simp only [tupLt, Bool.or_eq_true, Bool.and_eq_true, beq_iff_eq,
          decide_eq_true_eq] at h₁ h₂ ⊢
        rcases h₁ with h₁ | ⟨hab, h₁⟩
        · rcases h₂ with h₂ | ⟨hbc, _⟩
          · left; omega
          · left; omega
        · rcases h₂ with h₂ | ⟨hbc, h₂⟩
          · left; omega
          · right; exact ⟨by omega, ih h₁ h₂⟩

/-- One parsed update rule `from -> to, url` as produced by `parse_versions_docx`. -/
structure Transition where
  fv : String
  tv : String
  url : String
deriving DecidableEq

/-- The to-version key used by the chain resolver's `max(...)` call. -/
def keyTv (u : Transition) : List Int := version_to_tuple u.tv

/-- Python `max(c :: cs, key=...)` with a tuple-valued key: left-to-right scan
keeping the current best unless a later element's key is strictly greater, so
the first maximal element wins. -/
def maxByKey : Transition → List Transition → Transition
  | best, [] => best
  | best, x :: xs => maxByKey (if tupLt (keyTv best) (keyTv x) then x else best) xs

/-- The applicable transitions from `curr`: those with `from_version <= curr`
under dotted-integer-tuple comparison (`get_updates_chain`, `updater.py`). -/
def candidates (curr : String) (updates : List Transition) : List Transition :=
  updates.filter (fun u => tupLe (version_to_tuple u.fv) (version_to_tuple curr))

/-- The `while True` loop of `get_updates_chain` (`updater.py` lines 97-113),
with an explicit fuel parameter standing for the unbounded loop; the fuel
`updates.length + 1` is proved sufficient below. -/
def get_updates_chain_fuel : Nat → String → List Transition → List Transition
  | 0, _, _ => []
  | fuel + 1, curr, updates =>
    match candidates curr updates with
    | [] => []
    | c :: cs =>
      let best := maxByKey c cs
      if tupLe (version_to_tuple best.tv) (version_to_tuple curr) then []
      else best :: get_updates_chain_fuel fuel best.tv updates

/-- `get_updates_chain(current, updates)` from `updater.py` (identical in
`server/updater.py`). -/
def get_updates_chain (current : String) (updates : List Transition) :
    List Transition :=
  get_updates_chain_fuel (updates.length + 1) current updates

theorem tupLe_trans {x y z : List Int} (h₁ : tupLe x y = true)
    (h₂ : tupLe y z = true) : tupLe x z = true := by
  induction x generalizing y z with
  | nil => cases z <;> rfl
  | cons a xs ih =>
    cases y with
    | nil => simp [tupLe] at h₁
    | cons b ys =>
      cases z with
      | nil => simp [tupLe] at h₂
      | cons c zs =>
        simp only [tupLe, Bool.or_eq_true, Bool.and_eq_true, beq_iff_eq,
          decide_eq_true_eq] at h₁ h₂ ⊢
        rcases h₁ with h₁ | ⟨hab, h₁⟩
        · rcases h₂ with h₂ | ⟨hbc, _⟩
          · left; omega
          · left; omega
        · rcases h₂ with h₂ | ⟨hbc, h₂⟩
          · left; omega
          · right; exact ⟨by omega, ih h₁ h₂⟩

theorem tupLt_tupLe {x y : List Int} (h : tupLt x y = true) : tupLe x y = true := by
  rw [tupLe_eq_not_tupLt]
  cases hyx : tupLt y x with
  | false => rfl
  | true =>
    have := tupLt_trans h hyx
    rw [tupLt_irrefl] at this
    exact absurd this (by simp)

theorem maxByKey_mem (b : Transition) (xs : List Transition) :
    maxByKey b xs = b ∨ maxByKey b xs ∈ xs := by
  induction xs generalizing b with
  | nil => left; rfl
  | cons x xs ih =>
    simp only [maxByKey]
    by_cases hc : tupLt (keyTv b) (keyTv x) = true
    · simp only [hc, if_true]
      rcases ih x with h | h
      · right; simp [h]
      · right; simp [h]
    · simp only [Bool.not_eq_true] at hc
      simp only [hc, Bool.false_eq_true, if_false]
      rcases ih b with h | h
      · left; exact h
      · right; simp [h]

theorem maxByKey_ge_start (b : Transition) (xs : List Transition) :
    tupLe (keyTv b) (keyTv (maxByKey b xs)) = true := by
  induction xs generalizing b with
  | nil => exact tupLe_refl _
  | cons x xs ih =>
    simp only [maxByKey]
    by_cases hc : tupLt (keyTv b) (keyTv x) = true
    · simp only [hc, if_true]
      exact tupLe_trans (tupLt_tupLe hc) (ih x)
    · simp only [Bool.not_eq_true] at hc
      simp only [hc, Bool.false_eq_true, if_false]
      exact ih b

theorem maxByKey_max (b : Transition) (xs : List Transition) :
    ∀ u ∈ b :: xs, tupLe (keyTv u) (keyTv (maxByKey b xs)) = true := by
  induction xs generalizing b with
  | nil =>
    intro u hu
    rw [List.mem_singleton] at hu
    subst hu
    exact tupLe_refl _
  | cons x xs ih =>
    intro u hu
    simp only [maxByKey]
    by_cases hc : tupLt (keyTv b) (keyTv x) = true
    · simp only [hc, if_true]
      rcases List.mem_cons.mp hu with rfl | hu2
      · exact tupLe_trans (tupLt_tupLe hc) (maxByKey_ge_start x xs)
      · exact ih x u hu2
    · simp only [Bool.not_eq_true] at hc
      simp only [hc, Bool.false_eq_true, if_false]
      rcases List.mem_cons.mp hu with rfl | hu2
      · exact maxByKey_ge_start _ xs
      · rcases List.mem_cons.mp hu2 with rfl | hu3
        · have hxb : tupLe (keyTv u) (keyTv b) = true := by
            rw [tupLe_eq_not_tupLt, hc]
            rfl
          exact tupLe_trans hxb (maxByKey_ge_start b xs)
        · exact ih b u (List.mem_cons_of_mem b hu3)

theorem filter_length_mono {α : Type} (p q : α → Bool) (l : List α)
    (h : ∀ x ∈ l, q x = true → p x = true) :
    (l.filter q).length ≤ (l.filter p).length := by
  induction l with
  | nil => simp
  | cons a l ih =>
    have ht := ih (fun x hx => h x (List.mem_cons_of_mem a hx))
    by_cases hq : q a = true
    · have hp := h a (List.mem_cons_self a l) hq
      simp only [List.filter_cons, hq, hp, if_true, List.length_cons]
      omega
    · simp only [Bool.not_eq_true] at hq
      by_cases hp : p a = true
      · simp only [List.filter_cons, hq, hp, if_true, Bool.false_eq_true,
          if_false, List.length_cons]
        omega
      · simp only [Bool.not_eq_true] at hp
        simp only [List.filter_cons, hq, hp, Bool.false_eq_true, if_false]
        exact ht

theorem filter_length_strict {α : Type} (p q : α → Bool) (l : List α) (b : α)
    (h : ∀ x ∈ l, q x = true → p x = true) (hb : b ∈ l)
    (hpb : p b = true) (hqb : q b = false) :
    (l.filter q).length < (l.filter p).length := by
  induction l with
  | nil => simp at hb
  | cons a l ih =>
    have hmono := filter_length_mono p q l (fun x hx => h x (List.mem_cons_of_mem a hx))
    rcases List.mem_cons.mp hb with rfl | hbl
    · simp only [List.filter_cons, hqb, hpb, if_true, Bool.false_eq_true,
        if_false, List.length_cons]
      omega
    · have hlt := ih (fun x hx => h x (List.mem_cons_of_mem a hx)) hbl
      by_cases hq : q a = true
      · have hp := h a (List.mem_cons_self a l) hq
        simp only [List.filter_cons, hq, hp, if_true, List.length_cons]
        omega
      · simp only [Bool.not_eq_true] at hq
        by_cases hp : p a = true
        · simp only [List.filter_cons, hq, hp, if_true, Bool.false_eq_true,
            if_false, List.length_cons]
          omega
        · simp only [Bool.not_eq_true] at hp
          simp only [List.filter_cons, hq, hp, Bool.false_eq_true, if_false]
          exact hlt

/-- The loop variant of `get_updates_chain`: the number of transitions whose
to-version is strictly above the current version. -/
def countGT (curr : String) (updates : List Transition) : Nat :=
  (updates.filter (fun u => tupLt (version_to_tuple curr) (keyTv u))).length

theorem countGT_le (curr : String) (updates : List Transition) :
    countGT curr updates ≤ updates.length :=
  List.length_filter_le _ _

theorem get_updates_chain_fuel_succ (f : Nat) (curr : String)
    (updates : List Transition) :
    get_updates_chain_fuel (f + 1) curr updates =
      match candidates curr updates with
      | [] => []
      | c :: cs =>
        if tupLe (version_to_tuple (maxByKey c cs).tv) (version_to_tuple curr) then []
        else maxByKey c cs :: get_updates_chain_fuel f (maxByKey c cs).tv updates := rfl

/-- The facts established by one productive iteration of the resolver loop:
the selected transition is an applicable candidate, it strictly advances the
version, and the loop variant strictly decreases. -/
theorem step_facts (curr : String) (updates : List Transition)
    (c : Transition) (cs : List Transition)
    (hc : candidates curr updates = c :: cs)
    (hb : tupLe (version_to_tuple (maxByKey c cs).tv) (version_to_tuple curr) = false) :
    maxByKey c cs ∈ candidates curr updates
    ∧ tupLt (version_to_tuple curr) (version_to_tuple (maxByKey c cs).tv) = true
    ∧ countGT (maxByKey c cs).tv updates < countGT curr updates := by
  have hmem : maxByKey c cs ∈ candidates curr updates := by
    rw [hc]
    rcases maxByKey_mem c cs with h | h
    · rw [h]; exact List.mem_cons_self c cs
    · exact List.mem_cons_of_mem c h
  have hadv : tupLt (version_to_tuple curr) (version_to_tuple (maxByKey c cs).tv) = true := by
    have := tupLe_eq_not_tupLt (version_to_tuple (maxByKey c cs).tv) (version_to_tuple curr)
    rw [hb] at this
    cases hx : tupLt (version_to_tuple curr) (version_to_tuple (maxByKey c cs).tv) with
    | false => rw [hx] at this; exact absurd this.symm (by simp)
    | true => rfl
  refine ⟨hmem, hadv, ?_⟩
  apply filter_length_strict _ _ updates (maxByKey c cs)
  · intro x _ hq
    exact tupLt_trans hadv hq
  · exact List.mem_of_mem_filter hmem
  · exact hadv
  · exact tupLt_irrefl _

theorem chain_fuel_agree (updates : List Transition) :
    ∀ f₁ f₂ curr, countGT curr updates < f₁ → countGT curr updates < f₂ →
    get_updates_chain_fuel f₁ curr updates = get_updates_chain_fuel f₂ curr updates := by
  intro f₁
  induction f₁ with
  | zero => intro f₂ curr h₁ _; omega
  | succ n ih =>
    intro f₂ curr h₁ h₂
    cases f₂ with
    | zero => omega
    | succ m =>
      rw [get_updates_chain_fuel_succ, get_updates_chain_fuel_succ]
      cases hc : candidates curr updates with
      | nil => rfl
      | cons c cs =>
        simp only
        cases hbreak : tupLe (version_to_tuple (maxByKey c cs).tv) (version_to_tuple curr) with
        | true => simp [hbreak]
        | false =>
          obtain ⟨_, _, hcount⟩ := step_facts curr updates c cs hc hbreak
          simp only [hbreak, Bool.false_eq_true, if_false]
          congr 1
          exact ih m (maxByKey c cs).tv (by omega) (by omega)

/-- Any fuel above `updates.length` computes the same chain: the embedded
`while True` loop terminates within `updates.length` iterations. -/
theorem chain_fuel_stable (f : Nat) (curr : String) (updates : List Transition)
    (hf : updates.length + 1 ≤ f) :
    get_updates_chain_fuel f curr updates = get_updates_chain curr updates := by
  have h := countGT_le curr updates
  exact chain_fuel_agree updates f (updates.length + 1) curr (by omega) (by omega)

/-- The loop-step equation of `get_updates_chain`. -/
theorem get_updates_chain_eq (curr : String) (updates : List Transition) :
    get_updates_chain curr updates =
      match candidates curr updates with
      | [] => []
      | c :: cs =>
        if tupLe (version_to_tuple (maxByKey c cs).tv) (version_to_tuple curr) then []
        else maxByKey c cs :: get_updates_chain (maxByKey c cs).tv updates := by
  rw [get_updates_chain, get_updates_chain_fuel_succ]
  cases hc : candidates curr updates with
  | nil => rfl
  | cons c cs =>
    simp only
    cases hbreak : tupLe (version_to_tuple (maxByKey c cs).tv) (version_to_tuple curr) with
    | true => simp [hbreak]
    | false =>
      obtain ⟨_, _, hcount⟩ := step_facts curr updates c cs hc hbreak
      simp only [hbreak, Bool.false_eq_true, if_false]
      congr 1
      have h := countGT_le curr updates
      exact chain_fuel_agree updates updates.length (updates.length + 1)
        (maxByKey c cs).tv (by omega) (by omega)

theorem chain_fuel_length (updates : List Transition) :
    ∀ f curr, (get_updates_chain_fuel f curr updates).length ≤ countGT curr updates := by
  intro f
  induction f with
  | zero => intro curr; simp [get_updates_chain_fuel]
  | succ n ih =>
    intro curr
    rw [get_updates_chain_fuel_succ]
    cases hc : candidates curr updates with
    | nil => simp
    | cons c cs =>
      simp only
      cases hbreak : tupLe (version_to_tuple (maxByKey c cs).tv) (version_to_tuple curr) with
      | true => simp [hbreak]
      | false =>
        obtain ⟨_, _, hcount⟩ := step_facts curr updates c cs hc hbreak
        simp only [hbreak, Bool.false_eq_true, if_false, List.length_cons]
        have := ih (maxByKey c cs).tv
        omega

/-- The versions along a resolved chain, starting from `curr`, strictly
increase in dotted-integer-tuple order. -/
def chainAscends (curr : String) : List Transition → Prop
  | [] => True
  | u :: us =>
    tupLt (version_to_tuple curr) (version_to_tuple u.tv) = true ∧ chainAscends u.tv us

theorem chain_fuel_ascends (updates : List Transition) :
    ∀ f curr, chainAscends curr (get_updates_chain_fuel f curr updates) := by
  intro f
  induction f with
  | zero => intro curr; simp [get_updates_chain_fuel, chainAscends]
  | succ n ih =>
    intro curr
    rw [get_updates_chain_fuel_succ]
    cases hc : candidates curr updates with
    | nil => simp [chainAscends]
    | cons c cs =>
      simp only
      cases hbreak : tupLe (version_to_tuple (maxByKey c cs).tv) (version_to_tuple curr) with
      | true => simp [hbreak, chainAscends]
      | false =>
        obtain ⟨_, hadv, _⟩ := step_facts curr updates c cs hc hbreak
        simp only [hbreak, Bool.false_eq_true, if_false]
        exact ⟨hadv, ih (maxByKey c cs).tv⟩

theorem chain_fuel_subset (updates : List Transition) :
    ∀ f curr u, u ∈ get_updates_chain_fuel f curr updates → u ∈ updates := by
  intro f
  induction f with
  | zero => intro curr u hu; simp [get_updates_chain_fuel] at hu
  | succ n ih =>
    intro curr u hu
    rw [get_updates_chain_fuel_succ] at hu
    cases hc : candidates curr updates with
    | nil => rw [hc] at hu; simp at hu
    | cons c cs =>
      rw [hc] at hu
      simp only at hu
      cases hbreak : tupLe (version_to_tuple (maxByKey c cs).tv) (version_to_tuple curr) with
      | true => rw [hbreak] at hu; simp at hu
      | false =>
        rw [hbreak] at hu
        simp only [Bool.false_eq_true, if_false, List.mem_cons] at hu
        rcases hu with rfl | hu
        · obtain ⟨hmem, _, _⟩ := step_facts curr updates c cs hc hbreak
          exact List.mem_of_mem_filter hmem
        · exact ih (maxByKey c cs).tv u hu

theorem ascends_all (v : String) (l : List Transition) (h : chainAscends v l) :
    ∀ x ∈ l, tupLt (version_to_tuple v) (version_to_tuple x.tv) = true := by
  induction l generalizing v with
  | nil => intro x hx; simp at hx
  | cons u us ih =>
    intro x hx
    obtain ⟨h₁, h₂⟩ := h
    rcases List.mem_cons.mp hx with rfl | hx
    · exact h₁
    · exact tupLt_trans h₁ (ih u.tv h₂ x hx)

theorem ascends_pairwise (v : String) (l : List Transition) (h : chainAscends v l) :
    l.Pairwise (fun a b => tupLt (version_to_tuple a.tv) (version_to_tuple b.tv) = true) := by
  induction l generalizing v with
  | nil => exact List.Pairwise.nil
  | cons u us ih =>
    obtain ⟨_, h₂⟩ := h
    exact List.Pairwise.cons (ascends_all u.tv us h₂) (ih u.tv h₂)

/-- Lexicographic character order on strings; defined only in order to state
that the resolver's version comparison is not the lexical string order. -/
def charsLexLt : List Char → List Char → Bool
  | [], [] => false
  | [], _ :: _ => true
  | _ :: _, [] => false
  | a :: xs, b :: ys => a < b || (a == b && charsLexLt xs ys)

/-- Lexical (character-by-character) string order. -/
def strLexLt (a b : String) : Bool := charsLexLt a.data b.data

/-- C3: chain resolution is the greedy forward-walk of the spec. When no
applicable transition (one whose from-version is ≤ the current version)
strictly advances the version — in particular when there is no applicable
transition at all — the resolved chain is empty. Otherwise the resolver picks
an applicable transition whose to-version is greatest among the applicable
ones, appends it, and continues from that to-version. Versions are compared as
dotted-integer tuples: "1.9.0" is below "1.10.0" even though the lexical
string order puts "1.10.0" below "1.9.0". -/
theorem chain_resolution_follows_greedy_walk (curr : String) (updates : List Transition) :
    ((∀ u ∈ candidates curr updates,
        tupLe (version_to_tuple u.tv) (version_to_tuple curr) = true) →
      get_updates_chain curr updates = [])
    ∧ ((∃ u ∈ candidates curr updates,
          tupLt (version_to_tuple curr) (version_to_tuple u.tv) = true) →
        ∃ best ∈ candidates curr updates,
          (∀ u ∈ candidates curr updates,
            tupLe (version_to_tuple u.tv) (version_to_tuple best.tv) = true)
          ∧ tupLt (version_to_tuple curr) (version_to_tuple best.tv) = true
          ∧ get_updates_chain curr updates =
              best :: get_updates_chain best.tv updates)
    ∧ tupLt (version_to_tuple "1.9.0") (version_to_tuple "1.10.0") = true
    ∧ strLexLt "1.10.0" "1.9.0" = true := by
  refine ⟨?_, ?_, by decide, by decide⟩
  · intro h
    rw [get_updates_chain_eq]
    cases hc : candidates curr updates with
    | nil => rfl
    | cons c cs =>
      have hmem : maxByKey c cs ∈ candidates curr updates := by
        rw [hc]
        rcases maxByKey_mem c cs with he | he
        · rw [he]; exact List.mem_cons_self c cs
        · exact List.mem_cons_of_mem c he
      have hle := h (maxByKey c cs) hmem
      simp [hle]
  · intro ⟨u, hu, hult⟩
    cases hc : candidates curr updates with
    | nil => rw [hc] at hu; simp at hu
    | cons c cs =>
      have hbreak : tupLe (version_to_tuple (maxByKey c cs).tv) (version_to_tuple curr) = false := by
        cases hx : tupLe (version_to_tuple (maxByKey c cs).tv) (version_to_tuple curr) with
        | false => rfl
        | true =>
          have humax : tupLe (keyTv u) (keyTv (maxByKey c cs)) = true := by
            apply maxByKey_max c cs
            rw [← hc]; exact hu
          have hule : tupLe (version_to_tuple u.tv) (version_to_tuple curr) = true :=
            tupLe_trans humax hx
          rw [tupLe_eq_not_tupLt, hult] at hule
          exact absurd hule (by simp)
      obtain ⟨hmem, hadv, _⟩ := step_facts curr updates c cs hc hbreak
      rw [hc] at hmem
      refine ⟨maxByKey c cs, hmem, ?_, hadv, ?_⟩
      · intro v hv
        exact maxByKey_max c cs v hv
      · rw [get_updates_chain_eq, hc]
        simp [hbreak]

/-- Transitions of the spec's worked chain-resolution example:
`{"1.0.0"→"1.1.0", "1.1.0"→"2.0.0", "1.0.0"→"1.5.0"}`. -/
def exampleTransitions : List Transition :=
  [⟨"1.0.0", "1.1.0", "url1"⟩, ⟨"1.1.0", "2.0.0", "url2"⟩, ⟨"1.0.0", "1.5.0", "url3"⟩]

/-- Witness for `chain_resolution_follows_greedy_walk`: from "3.0.0" no
transition advances and the chain is empty; from "1.0.0" a greatest applicable
transition exists and heads the chain. -/
theorem chain_resolution_follows_greedy_walk_witness :
    get_updates_chain "3.0.0" exampleTransitions = []
    ∧ ∃ best ∈ candidates "1.0.0" exampleTransitions,
        (∀ u ∈ candidates "1.0.0" exampleTransitions,
          tupLe (version_to_tuple u.tv) (version_to_tuple best.tv) = true)
        ∧ tupLt (version_to_tuple "1.0.0") (version_to_tuple best.tv) = true
        ∧ get_updates_chain "1.0.0" exampleTransitions =
            best :: get_updates_chain best.tv exampleTransitions :=
  ⟨(chain_resolution_follows_greedy_walk "3.0.0" exampleTransitions).1 (by decide),
   (chain_resolution_follows_greedy_walk "1.0.0" exampleTransitions).2.1 (by decide)⟩

/-- C4 counterexample: on the spec's example transitions, resolution from
"1.0.0" returns TWO transitions, not the single transition 1.0.0→1.5.0, and
resolution from "1.5.0" finds the further transition 1.1.0→2.0.0 rather than
dead-ending, because candidacy requires `from_version ≤ current`, not
equality. -/
theorem chain_example_claim_false :
    get_updates_chain "1.0.0" exampleTransitions =
      [⟨"1.0.0", "1.5.0", "url3"⟩, ⟨"1.1.0", "2.0.0", "url2"⟩]
    ∧ get_updates_chain "1.0.0" exampleTransitions ≠ [⟨"1.0.0", "1.5.0", "url3"⟩]
    ∧ get_updates_chain "1.5.0" exampleTransitions ≠ [] := by decide

/-- C4 (amended): on the example transitions, resolution from "1.0.0" returns
[1.0.0→1.5.0, 1.1.0→2.0.0]: after advancing to "1.5.0", the transition
1.1.0→2.0.0 still applies since its from-version 1.1.0 is ≤ 1.5.0; resolving
again from "1.5.0" likewise returns [1.1.0→2.0.0]. -/
theorem chain_example_resolves_transitively :
    get_updates_chain "1.0.0" exampleTransitions =
      [⟨"1.0.0", "1.5.0", "url3"⟩, ⟨"1.1.0", "2.0.0", "url2"⟩]
    ∧ get_updates_chain "1.5.0" exampleTransitions = [⟨"1.1.0", "2.0.0", "url2"⟩]
    ∧ tupLe (version_to_tuple "1.1.0") (version_to_tuple "1.5.0") = true := by decide

/-- C10: the resolver loop terminates. Any fuel above `updates.length`
computes the same chain (so the unbounded `while True` loop stabilizes within
`updates.length` iterations); the returned chain is no longer than the input
list; the current version strictly increases in dotted-integer-tuple order at
every step, so the chain's to-versions are pairwise strictly increasing (hence
distinct); and every chain element is drawn from the input list. -/
theorem get_updates_chain_terminates (curr : String) (updates : List Transition) :
    (∀ f, updates.length + 1 ≤ f →
        get_updates_chain_fuel f curr updates = get_updates_chain curr updates)
    ∧ (get_updates_chain curr updates).length ≤ updates.length
    ∧ chainAscends curr (get_updates_chain curr updates)
    ∧ (get_updates_chain curr updates).Pairwise
        (fun a b => tupLt (version_to_tuple a.tv) (version_to_tuple b.tv) = true)
    ∧ (∀ u ∈ get_updates_chain curr updates, u ∈ updates) :=
  ⟨fun f hf => chain_fuel_stable f curr updates hf,
   le_trans (chain_fuel_length updates _ curr) (countGT_le curr updates),
   chain_fuel_ascends updates _ curr,
   ascends_pairwise curr _ (chain_fuel_ascends updates _ curr),
   fun u hu => chain_fuel_subset updates _ curr u hu⟩

/-- Witness for `get_updates_chain_terminates` at the example transitions. -/
theorem get_updates_chain_terminates_witness :
    get_updates_chain_fuel 10 "1.0.0" exampleTransitions =
      get_updates_chain "1.0.0" exampleTransitions
    ∧ (get_updates_chain "1.0.0" exampleTransitions).length ≤ exampleTransitions.length :=
  ⟨(get_updates_chain_terminates "1.0.0" exampleTransitions).1 10 (by decide),
   (get_updates_chain_terminates "1.0.0" exampleTransitions).2.1⟩

/-! ## Snapshots and the diff engine -/

/-- A snapshot document as built by `create_snapshot` in `snapshooter.py`:
a files dict (repository-relative path → SHA-256 hex digest, embedded as an
association list), a directory list, and the pip dependency list. -/
structure Snapshot where
  version : String := ""
  files : List (String × String) := []
  directories : List String := []
  pip : List String := []
deriving DecidableEq

/-- The five change lists computed by `create_update_package` and shipped in
`update_metadata.json`. -/
structure ChangeSet where
  added_files : List String
  modified_files : List String
  deleted_files : List String
  added_dirs : List String
  deleted_dirs : List String
deriving DecidableEq

/-- The diff computation of `create_update_package` (`snapshooter.py` lines
188-204; identical in `server/snapshooter.py` lines 225-241): one pass over
`new_files` classifying each path as added (absent from `old_files`) or
modified (present with a different checksum); a pass over `old_files`
collecting paths absent from `new_files` as deleted; and the two directory
set differences (Python materializes the set differences in arbitrary order;
the embedding materializes them as order-preserving filters with the same
elements). -/
def compute_changes (old_snapshot new_snapshot : Snapshot) : ChangeSet :=
  let old_files := old_snapshot.files
  let new_files := new_snapshot.files
  let old_dirs := old_snapshot.directories
  let new_dirs := new_snapshot.directories
  { added_files :=
      (new_files.filter (fun fc => (List.lookup fc.1 old_files).isNone)).map (fun fc => fc.1)
    modified_files :=
      (new_files.filter (fun fc =>
        match List.lookup fc.1 old_files with
        | some c => c != fc.2
        | none => false)).map (fun fc => fc.1)
    deleted_files :=
      (old_files.map (fun fc => fc.1)).filter (fun f => (List.lookup f new_files).isNone)
    added_dirs := new_dirs.filter (fun d => !old_dirs.contains d)
    deleted_dirs := old_dirs.filter (fun d => !new_dirs.contains d) }

theorem lookup_none_iff (f : String) (files : List (String × String)) :
    List.lookup f files = none ↔ f ∉ files.map Prod.fst := by
  induction files with
  | nil => simp
  | cons a rest ih =>
    obtain ⟨k, v⟩ := a
    simp only [List.lookup, List.map_cons, List.mem_cons]
    cases h : (f == k) with
    | true =>
      rw [beq_iff_eq] at h
      subst h
      simp
    | false =>
      rw [beq_eq_false_iff_ne] at h
      simp [h, ih]

theorem lookup_some_mem {f c : String} {files : List (String × String)}
    (h : List.lookup f files = some c) : (f, c) ∈ files := by
  induction files with
  | nil => simp [List.lookup] at h
  | cons a rest ih =>
    obtain ⟨k, v⟩ := a
    simp only [List.lookup] at h
    cases hk : (f == k) with
    | true =>
      rw [hk] at h
      simp only [Option.some.injEq] at h
      rw [beq_iff_eq] at hk
      subst hk
      subst h
      exact List.mem_cons_self _ _
    | false =>
      rw [hk] at h
      exact List.mem_cons_of_mem _ (ih h)

theorem mem_lookup_of_nodup {f c : String} {files : List (String × String)}
    (hnd : (files.map Prod.fst).Nodup) (h : (f, c) ∈ files) :
    List.lookup f files = some c := by
  induction files with
  | nil => simp at h
  | cons a rest ih =>
    obtain ⟨k, v⟩ := a
    simp only [List.map_cons, List.nodup_cons] at hnd
    rcases List.mem_cons.mp h with heq | hmem
    · rw [Prod.mk.injEq] at heq
      obtain ⟨h1, h2⟩ := heq
      subst h1
      subst h2
      simp [List.lookup]
    · have hne : f ≠ k := by
        intro hfk
        subst hfk
        exact hnd.1 (List.mem_map.mpr ⟨(f, c), hmem, rfl⟩)
      simp only [List.lookup, beq_eq_false_iff_ne.mpr hne]
      exact ih hnd.2 hmem

theorem added_files_iff (o n : Snapshot) (f : String) :
    f ∈ (compute_changes o n).added_files ↔
      f ∈ n.files.map Prod.fst ∧ f ∉ o.files.map Prod.fst := by
  simp only [compute_changes]
  rw [List.mem_map]
  constructor
  · rintro ⟨fc, hmem, rfl⟩
    rw [List.mem_filter] at hmem
    exact ⟨List.mem_map.mpr ⟨fc, hmem.1, rfl⟩,
      (lookup_none_iff _ _).mp (Option.isNone_iff_eq_none.mp hmem.2)⟩
  · rintro ⟨hmemk, habs⟩
    obtain ⟨fc, hmem, rfl⟩ := List.mem_map.mp hmemk
    exact ⟨fc, List.mem_filter.mpr
      ⟨hmem, Option.isNone_iff_eq_none.mpr ((lookup_none_iff _ _).mpr habs)⟩, rfl⟩

theorem modified_files_iff (o n : Snapshot) (f : String)
    (hnew : (n.files.map Prod.fst).Nodup) :
    f ∈ (compute_changes o n).modified_files ↔
      ∃ cNew cOld, List.lookup f n.files = some cNew
        ∧ List.lookup f o.files = some cOld ∧ cNew ≠ cOld := by
  simp only [compute_changes]
  rw [List.mem_map]
  constructor
  · rintro ⟨⟨fk, fv⟩, hmem, rfl⟩
    rw [List.mem_filter] at hmem
    obtain ⟨hmem, hpred⟩ := hmem
    cases hl : List.lookup fk o.files with
    | none => rw [hl] at hpred; simp at hpred
    | some c =>
      rw [hl] at hpred
      refine ⟨fv, c, mem_lookup_of_nodup hnew hmem, rfl, ?_⟩
      intro he
      exact bne_iff_ne.mp hpred he.symm
  · rintro ⟨cNew, cOld, hln, hlo, hne⟩
    refine ⟨(f, cNew), List.mem_filter.mpr ⟨lookup_some_mem hln, ?_⟩, rfl⟩
    simp only [hlo]
    exact bne_iff_ne.mpr (fun h => hne h.symm)

theorem deleted_files_iff (o n : Snapshot) (f : String) :
    f ∈ (compute_changes o n).deleted_files ↔
      f ∈ o.files.map Prod.fst ∧ f ∉ n.files.map Prod.fst := by
  simp only [compute_changes, List.mem_filter]
  constructor
  · rintro ⟨hmem, hnone⟩
    exact ⟨hmem, (lookup_none_iff _ _).mp (Option.isNone_iff_eq_none.mp hnone)⟩
  · rintro ⟨hmem, habs⟩
    exact ⟨hmem, Option.isNone_iff_eq_none.mpr ((lookup_none_iff _ _).mpr habs)⟩

theorem added_dirs_iff (o n : Snapshot) (d : String) :
    d ∈ (compute_changes o n).added_dirs ↔
      d ∈ n.directories ∧ d ∉ o.directories := by
  simp [compute_changes, List.mem_filter]

theorem deleted_dirs_iff (o n : Snapshot) (d : String) :
    d ∈ (compute_changes o n).deleted_dirs ↔
      d ∈ o.directories ∧ d ∉ n.directories := by
  simp [compute_changes, List.mem_filter]

theorem compute_changes_self (s : Snapshot) (h : (s.files.map Prod.fst).Nodup) :
    compute_changes s s = ⟨[], [], [], [], []⟩ := by
  simp only [compute_changes, ChangeSet.mk.injEq]
  refine ⟨?_, ?_, ?_, ?_, ?_⟩
  · rw [List.map_eq_nil, List.filter_eq_nil]
    intro fc hfc
    simp only [Option.isNone_iff_eq_none, lookup_none_iff]
    intro habs
    exact habs (List.mem_map.mpr ⟨fc, hfc, rfl⟩)
  · rw [List.map_eq_nil, List.filter_eq_nil]
    intro fc hfc
    rw [mem_lookup_of_nodup h (show (fc.1, fc.2) ∈ s.files from hfc)]
    simp
  · rw [List.filter_eq_nil]
    intro f hf
    simp only [Option.isNone_iff_eq_none, lookup_none_iff]
    intro habs
    exact habs hf
  · rw [List.filter_eq_nil]
    intro d hd
    simp [hd]
  · rw [List.filter_eq_nil]
    intro d hd
    simp [hd]

/-- C2: the diff engine classifies correctly. A path of `new.files` is added
iff absent from `old.files` and modified iff present in `old.files` with a
different checksum; a path is deleted iff it is in `old.files` but not
`new.files`; `added_dirs` and `deleted_dirs` are the two directory set
differences; the three file lists are pairwise disjoint; and diffing a
snapshot against itself yields all five lists empty. -/
theorem diff_engine_correct (o n : Snapshot)
    (hold : (o.files.map Prod.fst).Nodup)
    (hnew : (n.files.map Prod.fst).Nodup) :
    (∀ f, f ∈ (compute_changes o n).added_files ↔
        f ∈ n.files.map Prod.fst ∧ f ∉ o.files.map Prod.fst)
    ∧ (∀ f, f ∈ (compute_changes o n).modified_files ↔
        ∃ cNew cOld, List.lookup f n.files = some cNew
          ∧ List.lookup f o.files = some cOld ∧ cNew ≠ cOld)
    ∧ (∀ f, f ∈ (compute_changes o n).deleted_files ↔
        f ∈ o.files.map Prod.fst ∧ f ∉ n.files.map Prod.fst)
    ∧ (∀ d, d ∈ (compute_changes o n).added_dirs ↔
        d ∈ n.directories ∧ d ∉ o.directories)
    ∧ (∀ d, d ∈ (compute_changes o n).deleted_dirs ↔
        d ∈ o.directories ∧ d ∉ n.directories)
    ∧ (∀ f, ¬(f ∈ (compute_changes o n).added_files
          ∧ f ∈ (compute_changes o n).modified_files))
    ∧ (∀ f, ¬(f ∈ (compute_changes o n).added_files
          ∧ f ∈ (compute_changes o n).deleted_files))
    ∧ (∀ f, ¬(f ∈ (compute_changes o n).modified_files
          ∧ f ∈ (compute_changes o n).deleted_files))
    ∧ (∀ s : Snapshot, (s.files.map Prod.fst).Nodup →
        compute_changes s s = ⟨[], [], [], [], []⟩) := by
  refine ⟨added_files_iff o n, fun f => modified_files_iff o n f hnew,
    deleted_files_iff o n, added_dirs_iff o n, deleted_dirs_iff o n,
    ?_, ?_, ?_, compute_changes_self⟩
  · rintro f ⟨ha, hm⟩
    obtain ⟨_, habs⟩ := (added_files_iff o n f).mp ha
    obtain ⟨cNew, cOld, _, hlo, _⟩ := (modified_files_iff o n f hnew).mp hm
    exact habs (List.mem_map.mpr ⟨(f, cOld), lookup_some_mem hlo, rfl⟩)
  · rintro f ⟨ha, hd⟩
    obtain ⟨_, habs⟩ := (added_files_iff o n f).mp ha
    obtain ⟨hmem, _⟩ := (deleted_files_iff o n f).mp hd
    exact habs hmem
  · rintro f ⟨hm, hd⟩
    obtain ⟨cNew, cOld, hln, _, _⟩ := (modified_files_iff o n f hnew).mp hm
    obtain ⟨_, habs⟩ := (deleted_files_iff o n f).mp hd
    exact habs (List.mem_map.mpr ⟨(f, cNew), lookup_some_mem hln, rfl⟩)

/-- Witness for `diff_engine_correct`: the end-to-end example of the spec,
old = `{a.txt ↦ H1}`, new = `{a.txt ↦ H2, b.txt ↦ H3}`, directories `{sub}`
added. -/
theorem diff_engine_correct_witness :
    compute_changes
        { files := [("a.txt", "H1")] }
        { files := [("a.txt", "H2"), ("b.txt", "H3")], directories := ["sub"] } =
      ⟨["b.txt"], ["a.txt"], [], ["sub"], []⟩
    ∧ ("b.txt" ∈ (compute_changes
        { files := [("a.txt", "H1")] }
        { files := [("a.txt", "H2"), ("b.txt", "H3")], directories := ["sub"] }).added_files ↔
        "b.txt" ∈ ([("a.txt", "H2"), ("b.txt", "H3")].map Prod.fst)
          ∧ "b.txt" ∉ ([("a.txt", "H1")].map Prod.fst)) :=
  ⟨by decide,
   (diff_engine_correct { files := [("a.txt", "H1")] }
      { files := [("a.txt", "H2"), ("b.txt", "H3")], directories := ["sub"] }
      (by decide) (by decide)).1 "b.txt"⟩

/-! ## Exclusion filter -/

/-- Decidable equality for `Except`, used to evaluate embedded fallible
functions at concrete inputs. -/
instance {ε α : Type} [DecidableEq ε] [DecidableEq α] :
    DecidableEq (Except ε α) := fun x y =>
  match x, y with
  | .error a, .error b =>
    match decEq a b with
    | isTrue h => isTrue (by rw [h])
    | isFalse h => isFalse (by intro hc; cases hc; exact h rfl)
  | .ok a, .ok b =>
    match decEq a b with
    | isTrue h => isTrue (by rw [h])
    | isFalse h => isFalse (by intro hc; cases hc; exact h rfl)
  | .error _, .ok _ => isFalse (by intro hc; cases hc)
  | .ok _, .error _ => isFalse (by intro hc; cases hc)

/-- Glob matching as performed by `PurePath.match`/`fnmatch` for patterns
built from literal characters, `*` (any run) and `?` (any one character) —
the only shapes occurring in `EXCLUDE_PATTERNS`. Each recursive call shrinks
`pattern.length + candidate.length`, so the fuel passed by `globMatch` makes
the zero-fuel branch unreachable (`globMatch_fuel_stable`). -/
def globMatchFuel : Nat → List Char → List Char → Bool
  | 0, _, _ => false
  | _ + 1, [], s => s.isEmpty
  | n + 1, p :: ps, [] => if p = '*' then globMatchFuel n ps [] else false
  | n + 1, p :: ps, c :: cs =>
    if p = '*' then globMatchFuel n ps (c :: cs) || globMatchFuel n (p :: ps) cs
    else (p == '?' || p == c) && globMatchFuel n ps cs

/-- `fnmatch`-style glob matching of `name` against `pattern`. -/
def globMatch (pattern name : List Char) : Bool :=
  globMatchFuel (pattern.length + name.length + 1) pattern name

theorem globMatchFuel_agree :
    ∀ (n m : Nat) (p s : List Char), p.length + s.length < n →
      p.length + s.length < m → globMatchFuel n p s = globMatchFuel m p s := by
  intro n
  induction n with
  | zero => intro m p s h; omega
  | succ k ih =>
    intro m p s hn hm
    cases m with
    | zero => omega
    | succ j =>
      match p, s with
      | [], s => rfl
      | q :: ps, [] =>
        simp only [globMatchFuel]
        by_cases hq : q = '*'
        · simp only [hq, if_true]
          exact ih j ps [] (by simp only [List.length_cons, List.length_nil] at hn ⊢; omega) (by simp only [List.length_cons, List.length_nil] at hm ⊢; omega)
        · simp [hq]
      | q :: ps, c :: cs =>
        simp only [globMatchFuel]
        by_cases hq : q = '*'
        · simp only [hq, if_true]
          rw [ih j ps (c :: cs) (by simp only [List.length_cons, List.length_nil] at hn ⊢; omega) (by simp only [List.length_cons, List.length_nil] at hm ⊢; omega),
            ih j ('*' :: ps) cs (by simp only [List.length_cons, List.length_nil] at hn ⊢; omega) (by simp only [List.length_cons, List.length_nil] at hm ⊢; omega)]
        · simp only [hq, if_false]
          rw [ih j ps cs (by simp only [List.length_cons, List.length_nil] at hn ⊢; omega) (by simp only [List.length_cons, List.length_nil] at hm ⊢; omega)]

/-- With any sufficient fuel the matcher computes the same answer. -/
theorem globMatch_fuel_stable (n : Nat) (p s : List Char)
    (h : p.length + s.length < n) :
    globMatchFuel n p s = globMatch p s :=
  globMatchFuel_agree n (p.length + s.length + 1) p s h (by omega)

/-- Does the first character list start with the second one? -/
def startsWithChars : List Char → List Char → Bool
  | _, [] => true
  | [], _ :: _ => false
  | c :: cs, p :: ps => c == p && startsWithChars cs ps

/-- Join character-list components with a separator character. -/
def joinSep (sep : Char) : List (List Char) → List Char
  | [] => []
  | [c] => c
  | c :: rest => c ++ sep :: joinSep sep rest

/-- Join path components with `/`. -/
def joinSlash (l : List (List Char)) : List Char := joinSep '/' l

/-- Models `os.path.relpath(path)` against the working directory for the
already-relative, `..`-free paths this program passes to it: the empty path
raises `ValueError` (here `Except.error`); otherwise empty and `.` segments
are dropped, and if nothing remains the result is `"."`. -/
def relpathPy (path : String) : Except Unit String :=
  if path = "" then .error ()
  else
    match (splitOnChar '/' path.data).filter (fun c => !(c.isEmpty || c == ['.'])) with
    | [] => .ok "."
    | comps => .ok ⟨joinSlash comps⟩

/-- `EXCLUDE_DIRS` of `snapshooter.py`. -/
def EXCLUDE_DIRS : List String :=
  ["venv", "win_venv", ".venv", ".win_venv", "browser/2", "_snapshots",
   "_update_ver", "scrapers/2", ".git"]

/-- `EXCLUDE_PATTERNS` (identical in both snapshooter variants). -/
def EXCLUDE_PATTERNS : List String := ["snapshot_*", "update_*"]

/-- `EXCLUDE_FILES` of `snapshooter.py`; note `"upload_queue*"` sits in the
exact-basename set, so it only matches a file literally named that. -/
def EXCLUDE_FILES : List String := ["social.db", "config.json", "upload_queue*"]

/-- `EXCLUDE_DIRS` of `server/snapshooter.py` (adds `"2"`). -/
def EXCLUDE_DIRS_SERVER : List String :=
  ["venv", "win_venv", ".venv", ".win_venv", "browser/2", "_snapshots",
   "_update_ver", "scrapers/2", ".git", "2"]

/-- `EXCLUDE_FILES` of `server/snapshooter.py`. -/
def EXCLUDE_FILES_SERVER : List String :=
  ["social.db", "config.json", "upload_queue_backup.db"]

/-- The rule-evaluation body shared by both `should_exclude` variants
(`snapshooter.py` lines 34-55, `server/snapshooter.py` lines 53-79):
relativize the candidate, test the excluded-directory rules, the path-part
rule, the exact-basename rule and the basename glob patterns, in that order.
`Except.error` is an exception raised while testing the path (the modeled
failure source is `os.path.relpath` raising `ValueError` on an empty path). -/
def should_exclude_eval (dirs patterns files : List String) (path : String) :
    Except Unit Bool :=
  match relpathPy path with
  | .error e => .error e
  | .ok rel =>
    let parts := if rel == "." then []
      else (splitOnChar '/' rel.data).map (fun cs => (⟨cs⟩ : String))
    let name := (parts.getLast?).getD ""
    .ok (dirs.any (fun ex => rel == ex
          || startsWithChars rel.data (ex.data ++ ['/']))
      || parts.any (fun part => dirs.contains part)
      || files.contains name
      || patterns.any (fun pat => globMatch pat.data name.data))

/-- `should_exclude` of `snapshooter.py`: no exception handler, so an
evaluation error propagates to the caller. -/
def should_exclude (path : String) : Except Unit Bool :=
  should_exclude_eval EXCLUDE_DIRS EXCLUDE_PATTERNS EXCLUDE_FILES path

/-- `should_exclude` of `server/snapshooter.py`: same rules over the server
constant sets, wrapped in a handler that logs and returns `True` on any
evaluation error. -/
def should_exclude_server (path : String) : Bool :=
  match should_exclude_eval EXCLUDE_DIRS_SERVER EXCLUDE_PATTERNS EXCLUDE_FILES_SERVER path with
  | .ok b => b
  | .error _ => true

/-- C8 counterexample: evaluating the exclusion rules on the empty path
raises (modeling `os.path.relpath("")` raising `ValueError`), and the
`snapshooter.py` variant propagates that error to the tree walk instead of
returning `True`; only the server variant absorbs it. -/
theorem should_exclude_propagates_on_error :
    should_exclude "" = .error () ∧ should_exclude_server "" = true := by decide

/-- C8 (amended): in `server/snapshooter.py`, any error while evaluating the
exclusion rules makes `should_exclude` return `True` — the path is excluded
and nothing propagates; the base `snapshooter.py` variant has no handler, so
the same evaluation error propagates to the tree walk. -/
theorem should_exclude_fail_safe (path : String) :
    (∀ e, should_exclude_eval EXCLUDE_DIRS_SERVER EXCLUDE_PATTERNS
        EXCLUDE_FILES_SERVER path = .error e →
      should_exclude_server path = true)
    ∧ (∀ e, should_exclude_eval EXCLUDE_DIRS EXCLUDE_PATTERNS EXCLUDE_FILES path
        = .error e →
      should_exclude path = .error e) := by
  constructor
  · intro e he
    rw [should_exclude_server, he]
  · intro e he
    rw [should_exclude, he]

/-- Witness for `should_exclude_fail_safe` at the empty path. -/
theorem should_exclude_fail_safe_witness : should_exclude_server "" = true :=
  (should_exclude_fail_safe "").1 () (by decide)

/-! ## Snapshot capture -/

/-- One file yielded by the tree walk: its walk path (as passed to
`should_exclude` and `get_file_checksum`, already relative) and its contents,
`none` when reading it raises `IOError`. The walk itself (`os.walk`) is an
external primitive, modeled as the enumeration it yields. -/
structure FileEntry where
  path : String
  contents : Option String
deriving DecidableEq

/-- `get_file_checksum`: stream the file and return its digest, re-raising a
read error; the SHA-256 digest of readable contents is abstracted as the
`hash` parameter. -/
def get_file_checksum (hash : String → String) (f : FileEntry) : Except Unit String :=
  match f.contents with
  | some s => .ok (hash s)
  | none => .error ()

/-- The file-hashing loop of `create_snapshot` (`server/snapshooter.py` lines
124-129): skip excluded files, hash the rest, a checksum failure aborting the
whole loop. -/
def snapshotFilesLoop (hash : String → String) :
    List FileEntry → Except Unit (List (String × String))
  | [] => .ok []
  | f :: fs =>
    if should_exclude_server f.path then snapshotFilesLoop hash fs
    else
      match get_file_checksum hash f with
      | .error e => .error e
      | .ok c =>
        match snapshotFilesLoop hash fs with
        | .error e => .error e
        | .ok rest => .ok ((f.path, c) :: rest)

/-- `create_snapshot` (`server/snapshooter.py` lines 105-147) over the walk's
enumeration: collect the non-excluded directories, hash every non-excluded
file, and only on success produce the snapshot document. -/
def create_snapshot (hash : String → String) (version : String)
    (walkDirs : List String) (walkFiles : List FileEntry) : Except Unit Snapshot :=
  match snapshotFilesLoop hash walkFiles with
  | .error e => .error e
  | .ok files =>
    .ok { version := version
          files := files
          directories := walkDirs.filter
            (fun r => r != "." && !should_exclude_server r) }

/-- The snapshot documents a capture writes into the snapshot directory:
exactly one on success (its name built from version and timestamp), none on
failure — `json.dump` runs only after the walk loop completes. -/
def create_snapshot_writes (hash : String → String) (version ts : String)
    (walkDirs : List String) (walkFiles : List FileEntry) : List (String × Snapshot) :=
  match create_snapshot hash version walkDirs walkFiles with
  | .ok s => [("./_snapshots/snapshot_" ++ version ++ "_" ++ ts ++ ".json", s)]
  | .error _ => []

theorem snapshotFilesLoop_error (hash : String → String) (fs : List FileEntry)
    (hbad : ∃ f ∈ fs, should_exclude_server f.path = false ∧ f.contents = none) :
    snapshotFilesLoop hash fs = .error () := by
  induction fs with
  | nil => simp at hbad
  | cons f₀ rest ih =>
    obtain ⟨f, hf, hexcl, hnone⟩ := hbad
    simp only [snapshotFilesLoop]
    rcases List.mem_cons.mp hf with rfl | hmem
    · rw [hexcl]
      simp only [Bool.false_eq_true, if_false, get_file_checksum, hnone]
    · cases hx : should_exclude_server f₀.path with
      | true => simp only [if_true]; exact ih ⟨f, hmem, hexcl, hnone⟩
      | false =>
        simp only [Bool.false_eq_true, if_false]
        cases hc : get_file_checksum hash f₀ with
        | error e => rfl
        | ok c => rw [ih ⟨f, hmem, hexcl, hnone⟩]

/-- C6: if hashing any single non-excluded file of the walk raises an I/O
error, the whole capture raises and no snapshot document is written — a
capture never persists a partial snapshot. -/
theorem capture_all_or_nothing (hash : String → String) (version ts : String)
    (walkDirs : List String) (walkFiles : List FileEntry)
    (hbad : ∃ f ∈ walkFiles, should_exclude_server f.path = false ∧ f.contents = none) :
    create_snapshot hash version walkDirs walkFiles = .error ()
    ∧ create_snapshot_writes hash version ts walkDirs walkFiles = [] := by
  have herr := snapshotFilesLoop_error hash walkFiles hbad
  constructor
  · rw [create_snapshot, herr]
  · rw [create_snapshot_writes, create_snapshot, herr]

/-- Witness for `capture_all_or_nothing`: one readable and one unreadable
file; the capture errors and writes nothing. -/
theorem capture_all_or_nothing_witness :
    create_snapshot (fun s => s) "1.0.0" ["sub"]
        [⟨"sub/ok.txt", some "data"⟩, ⟨"sub/bad.txt", none⟩] = .error ()
    ∧ create_snapshot_writes (fun s => s) "1.0.0" "1700000000" ["sub"]
        [⟨"sub/ok.txt", some "data"⟩, ⟨"sub/bad.txt", none⟩] = [] :=
  capture_all_or_nothing (fun s => s) "1.0.0" "1700000000" ["sub"]
    [⟨"sub/ok.txt", some "data"⟩, ⟨"sub/bad.txt", none⟩] (by decide)

/-! ## Package building -/

/-- The payload-collection loop of `create_update_package` (`snapshooter.py`
lines 221-225, `server/snapshooter.py` lines 259-263): for each added or
modified path, embed the on-disk bytes when the file still exists, otherwise
record a warning and omit the file. The disk state at packaging time is the
`disk` association list. Returns (payload entries, warned paths). -/
def collect_payload (disk : List (String × String)) :
    List String → List (String × String) × List String
  | [] => ([], [])
  | f :: fs =>
    let rest := collect_payload disk fs
    match List.lookup f disk with
    | some contents => ((f, contents) :: rest.1, rest.2)
    | none => (rest.1, f :: rest.2)

/-- The package path chosen by `create_update_package`:
`_update_ver/update_{major|minor}_{timestamp}.zip`. -/
def updateZipPath (full : Bool) (ts : String) : String :=
  "./_update_ver/update_" ++ (if full then "major" else "minor") ++ "_" ++ ts ++ ".zip"

/-- The archive built by `create_update_package` after the diff: the embedded
snapshot document under its basename, the payload for every added/modified
path still on disk, and `update_metadata.json`; the function is total — a
vanished payload file is warned about and skipped, never an error. Returns
(zip path, archive entries, warned paths). -/
def create_update_package_archive (disk : List (String × String))
    (snapshotBase snapshotDoc metadataDoc : String) (full : Bool) (ts : String)
    (cs : ChangeSet) : String × List (String × String) × List String :=
  let payload := collect_payload disk (cs.added_files ++ cs.modified_files)
  (updateZipPath full ts,
   (snapshotBase, snapshotDoc) :: payload.1 ++ [("update_metadata.json", metadataDoc)],
   payload.2)

theorem collect_payload_warned (disk : List (String × String)) (l : List String)
    (f : String) (hmem : f ∈ l) (hmiss : List.lookup f disk = none) :
    f ∈ (collect_payload disk l).2 := by
  induction l with
  | nil => simp at hmem
  | cons g rest ih =>
    simp only [collect_payload]
    rcases List.mem_cons.mp hmem with rfl | hmem₂
    · rw [hmiss]
      exact List.mem_cons_self _ _
    · cases hg : List.lookup g disk with
      | some c => exact ih hmem₂
      | none => exact List.mem_cons_of_mem _ (ih hmem₂)

theorem collect_payload_sound (disk : List (String × String)) (l : List String)
    (f d : String) (hmem : (f, d) ∈ (collect_payload disk l).1) :
    List.lookup f disk = some d := by
  induction l with
  | nil => simp [collect_payload] at hmem
  | cons g rest ih =>
    simp only [collect_payload] at hmem
    cases hg : List.lookup g disk with
    | some c =>
      rw [hg] at hmem
      rcases List.mem_cons.mp hmem with heq | hmem₂
      · rw [Prod.mk.injEq] at heq
        obtain ⟨h1, h2⟩ := heq
        subst h1
        subst h2
        exact hg
      · exact ih hmem₂
    | none =>
      rw [hg] at hmem
      exact ih hmem

/-- C7: if a path listed in added ∪ modified no longer exists on disk at
packaging time, the package build records a warning for it, omits it from the
archive payload, and still completes, returning the computed package path —
the package is knowingly incomplete for that path. -/
theorem missing_payload_file_nonfatal (disk : List (String × String))
    (snapshotBase snapshotDoc metadataDoc : String) (full : Bool) (ts : String)
    (cs : ChangeSet) (f : String)
    (hchanged : f ∈ cs.added_files ++ cs.modified_files)
    (hmissing : List.lookup f disk = none) :
    f ∈ (create_update_package_archive disk snapshotBase snapshotDoc metadataDoc
          full ts cs).2.2
    ∧ (∀ d, (f, d) ∉ (collect_payload disk (cs.added_files ++ cs.modified_files)).1)
    ∧ (create_update_package_archive disk snapshotBase snapshotDoc metadataDoc
          full ts cs).1 = updateZipPath full ts := by
  refine ⟨collect_payload_warned disk _ f hchanged hmissing, ?_, rfl⟩
  intro d hd
  have := collect_payload_sound disk _ f d hd
  rw [hmissing] at this
  exact absurd this (by simp)

/-- Witness for `missing_payload_file_nonfatal`: `gone.txt` is listed as
modified but no longer on disk. -/
theorem missing_payload_file_nonfatal_witness :
    "gone.txt" ∈ (create_update_package_archive [("kept.txt", "K")]
        "snapshot_1.0.0.json" "snapdoc" "metadoc" false "1700000000"
        ⟨["kept.txt"], ["gone.txt"], [], [], []⟩).2.2
    ∧ (∀ d, ("gone.txt", d) ∉ (collect_payload [("kept.txt", "K")]
        (["kept.txt"] ++ ["gone.txt"])).1)
    ∧ (create_update_package_archive [("kept.txt", "K")]
        "snapshot_1.0.0.json" "snapdoc" "metadoc" false "1700000000"
        ⟨["kept.txt"], ["gone.txt"], [], [], []⟩).1 = updateZipPath false "1700000000" :=
  missing_payload_file_nonfatal [("kept.txt", "K")] "snapshot_1.0.0.json"
    "snapdoc" "metadoc" false "1700000000"
    ⟨["kept.txt"], ["gone.txt"], [], [], []⟩ "gone.txt" (by decide) (by decide)

/-! ## Filesystem model

The appliers mutate a filesystem rooted at the process working directory.
It is modeled as the association list of the regular files under that root:
a component path (the `/`-split relative path) mapped to the file's bytes.
Directories exist implicitly as proper prefixes of file paths; paths that
resolve outside the root are outside the modeled map. -/

/-- Does the string `s` start with `pre`? -/
def strStartsWith (s pre : String) : Bool := startsWithChars s.data pre.data

/-- Does the string `s` end with `suf`? -/
def strEndsWith (s suf : String) : Bool :=
  startsWithChars s.data.reverse suf.data.reverse

/-- Is `d` a component-wise path prefix of `p` (p lies at or below d)? -/
def pathUnder : List String → List String → Bool
  | [], _ => true
  | _ :: _, [] => false
  | d :: ds, p :: ps => d == p && pathUnder ds ps

theorem pathUnder_refl (p : List String) : pathUnder p p = true := by
  induction p with
  | nil => rfl
  | cons a ps ih => simp [pathUnder, ih]

/-- A regular file exists at `p`. -/
def fsIsFile (fs : List (List String × String)) (p : List String) : Bool :=
  fs.any (fun e => e.1 == p)

/-- A directory exists at `p`: some file lies strictly below it. -/
def fsIsDir (fs : List (List String × String)) (p : List String) : Bool :=
  fs.any (fun e => pathUnder p e.1 && e.1 != p)

/-- `os.path.exists` over the modeled filesystem. -/
def fsExists (fs : List (List String × String)) (p : List String) : Bool :=
  fsIsFile fs p || fsIsDir fs p

/-- `os.remove`: drop exactly the file at `p`. -/
def fsRemoveFile (fs : List (List String × String)) (p : List String) :
    List (List String × String) :=
  fs.filter (fun e => e.1 != p)

/-- `shutil.rmtree(d, onerror=handle_remove_readonly)`: remove everything at
or below `d`; the read-only-clearing error handler makes the removal succeed
wholesale, so it is modeled as complete removal. -/
def rmtree (fs : List (List String × String)) (d : List String) :
    List (List String × String) :=
  fs.filter (fun e => !pathUnder d e.1)

/-- A fresh file write at `p` (any previous file there replaced). -/
def fsWrite (fs : List (List String × String)) (p : List String) (contents : String) :
    List (List String × String) :=
  (p, contents) :: fs.filter (fun e => e.1 != p)

/-- `force_remove` (`apply_update.py` lines 26-45; same shape in
`server/apply_update.py` and `pyqt5_vk_uploader_folder/update.py`): for an
existing file, clear read-only and `os.remove` it; if that raises (the
`locked` oracle), fall back to `shutil.rmtree` on the file's PARENT directory
with the read-only-clearing handler. For a directory, `rmtree` it directly.
Otherwise do nothing. -/
def force_remove (locked : List String → Bool)
    (fs : List (List String × String)) (p : List String) :
    List (List String × String) :=
  if fsIsFile fs p then
    if locked p then rmtree fs p.dropLast
    else fsRemoveFile fs p
  else if fsIsDir fs p then rmtree fs p
  else fs

/-- C9: when `force_remove` is called on an existing file whose single-file
deletion fails, it falls back to recursively removing the file's entire
parent directory: the result is exactly `rmtree(parent)`, and every entry at
or below that parent — all siblings and their subtrees included — is gone, so
the effect is not confined to the argument path. -/
theorem force_remove_locked_removes_parent (locked : List String → Bool)
    (fs : List (List String × String)) (p : List String)
    (hfile : fsIsFile fs p = true) (hlock : locked p = true) :
    force_remove locked fs p = rmtree fs p.dropLast
    ∧ ∀ e ∈ fs, pathUnder p.dropLast e.1 = true →
        e ∉ force_remove locked fs p := by
  have heq : force_remove locked fs p = rmtree fs p.dropLast := by
    rw [force_remove, hfile, hlock]
    simp
  refine ⟨heq, ?_⟩
  intro e he hunder
  rw [heq, rmtree]
  intro hmem
  rw [List.mem_filter] at hmem
  rw [hunder] at hmem
  exact absurd hmem.2 (by simp)

/-- Witness for `force_remove_locked_removes_parent`: force-removing the
locked file `d/a.txt` also deletes its sibling `d/b.txt`. -/
theorem force_remove_locked_removes_parent_witness :
    force_remove (fun q => q == ["d", "a.txt"])
        [(["d", "a.txt"], "A"), (["d", "b.txt"], "B")] ["d", "a.txt"]
      = rmtree [(["d", "a.txt"], "A"), (["d", "b.txt"], "B")] ["d"]
    ∧ (["d", "b.txt"], "B") ∉ force_remove (fun q => q == ["d", "a.txt"])
        [(["d", "a.txt"], "A"), (["d", "b.txt"], "B")] ["d", "a.txt"] :=
  ⟨(force_remove_locked_removes_parent (fun q => q == ["d", "a.txt"])
      [(["d", "a.txt"], "A"), (["d", "b.txt"], "B")] ["d", "a.txt"]
      (by decide) (by decide)).1,
   (force_remove_locked_removes_parent (fun q => q == ["d", "a.txt"])
      [(["d", "a.txt"], "A"), (["d", "b.txt"], "B")] ["d", "a.txt"]
      (by decide) (by decide)).2 (["d", "b.txt"], "B") (by decide) (by decide)⟩

/-! ## Archive entries and extraction -/

/-- One archive entry: the name stored in the zip (directory entries end in
`/`) and the entry's bytes. -/
structure ZipEntry where
  name : String
  contents : String
deriving DecidableEq

/-- The raw `/`-separated components of a zip entry name. -/
def rawParts (name : String) : List String :=
  (splitOnChar '/' name.data).map (fun cs => (⟨cs⟩ : String))

/-- `PurePath(name).parts` for the hidden-component test: `/`-separated
components with empty and `.` segments dropped (the leading root marker of an
absolute name, which never starts with a dot, is irrelevant to that test). -/
def pathlibParts (name : String) : List String :=
  (rawParts name).filter (fun c => c != "" && c != ".")

/-- Where `ZipFile.extract` actually writes an entry under the destination:
CPython's `_extract_member` interprets the name as relative, dropping empty,
`.` and `..` components before joining it below the destination directory. -/
def zipExtractTarget (name : String) : List String :=
  (rawParts name).filter (fun c => c != "" && c != "." && c != "..")

/-- Lexical normalization of `/`-separated components against the working
directory, tracking how far the path climbs above it: `(k, acc)` means
`cwd/../^k/acc` with `acc` free of empty, `.` and `..` segments. -/
def climbSteps : Nat → List String → List String → Nat × List String
  | k, acc, [] => (k, acc)
  | k, acc, c :: cs =>
    if c = "" || c = "." then climbSteps k acc cs
    else if c = ".." then
      match acc with
      | [] => climbSteps (k + 1) [] cs
      | _ => climbSteps k acc.dropLast cs
    else climbSteps k (acc ++ [c]) cs

/-- `os.path.abspath(name)` (and `(Path.cwd() / name).resolve()`, symlinks
not modeled) relative to the abstract working directory: `none` for an
absolute name, whose location relative to the abstract working directory is
unknown; otherwise `some (k, p)` meaning the target is `p` below the `k`-th
ancestor of the working directory (`k = 0`: inside the root). -/
def resolveClimb (name : String) : Option (Nat × List String) :=
  if strStartsWith name "/" then none
  else some (climbSteps 0 [] (rawParts name))

/-- `(Path.cwd() / name).resolve().relative_to(Path.cwd())` as a partial
function: the resolved relative component list when the target is a
descendant of the working directory, `none` when it escapes it (an absolute
name or `..` segments climbing above it). -/
def resolveUnderCwd (name : String) : Option (List String) :=
  match resolveClimb name with
  | some (0, p) => some p
  | _ => none

/-- The world the applier mutates: the file map under the working directory,
plus whether the working directory itself still exists — `rmtree` on one of
its ancestors destroys it together with every file in it. Out-of-root
targets other than the root's ancestors (absolute names, or paths under an
ancestor with components left) are disjoint from the modeled root — the
working directory's own name is abstract and assumed not to collide — so
they are tracked only through their (absent) effect on it. -/
structure WorldFS where
  files : List (List String × String)
  rootAlive : Bool
deriving DecidableEq

/-- The first `snapshot_*.json` name in the archive's name list
(`main` of `apply_update.py`; the same generator expression appears in
`on_zip_downloaded`). -/
def findSnapshotName (names : List String) : Option String :=
  names.find? (fun n => strStartsWith n "snapshot_" && strEndsWith n ".json")

/-- Does this `force_remove` call destroy the working directory itself? That
happens exactly when it ends up running `rmtree` on the root: a locked file
directly in the root (the fallback `rmtree(dirname(path))` is then the root
itself), or a directory target that IS the root. -/
def removesRoot (locked : List String → Bool)
    (fs : List (List String × String)) (p : List String) : Bool :=
  if fsIsFile fs p then locked p && p.dropLast.isEmpty
  else if fsIsDir fs p then p.isEmpty
  else false

/-- The `abspath → exists → force_remove` step shared by PHASE 1 of
`apply_update` (lines 60-69) and its PHASE 2 pre-extract removal (lines
88-90). An in-root target uses the modeled `force_remove` (destroying the
working directory when the removal runs `rmtree` on the root itself); a
target that is an ancestor of the root (`..` segments climbing above it, no
components left) is an existing directory whose `rmtree` destroys every
in-root file and the working directory; other out-of-root targets are
disjoint from the modeled root (see `WorldFS`) and leave it unchanged. -/
def removeResolved (locked : List String → Bool) (w : WorldFS) (nm : String) :
    WorldFS :=
  match resolveClimb nm with
  | some (0, q) =>
    if fsExists w.files q then
      { files := force_remove locked w.files q,
        rootAlive := w.rootAlive && !removesRoot locked w.files q }
    else w
  | some (_ + 1, []) => { files := [], rootAlive := false }
  | _ => w

/-- The final write of `ZipFile.extract` at the sanitized target below the
destination (missing parent directories are created by `_extract_member`):
opening the target for writing raises when the destination root no longer
exists, when the target is the root directory itself or an existing
directory (`IsADirectoryError`), or when a proper ancestor of the target is
an existing regular file (`NotADirectoryError`). -/
def zipExtractWrite (w : WorldFS) (t : List String) (contents : String) :
    Except Unit WorldFS :=
  if !w.rootAlive then .error ()
  else if t.isEmpty then .error ()
  else if fsIsDir w.files t then .error ()
  else if (List.range t.length).any
      (fun k => decide (0 < k) && fsIsFile w.files (t.take k)) then .error ()
  else .ok { w with files := fsWrite w.files t contents }

/-- The per-entry skip decision of `UpdaterWidget.on_zip_downloaded`
(`pyqt5_vk_uploader_folder/update.py` lines 386-412): skip the reserved
metadata and snapshot names; skip names containing a hidden (dot-initial)
component; skip names resolving outside the working directory; skip
directory entries (they get no action of their own). Returns the RESOLVED
target (the loop's `target` variable) for the file entries it extracts. -/
def gui_extract_decision (snapshotFile : Option String) (e : ZipEntry) :
    Option (List String) :=
  if e.name == "update_metadata.json" || e.name == snapshotFile.getD "" then none
  else if (pathlibParts e.name).any
      (fun part => strStartsWith part "." && part != "." && part != "..") then none
  else
    match resolveUnderCwd e.name with
    | none => none
    | some tgt =>
      if strEndsWith e.name "/" then none
      else some tgt

/-- One entry of the GUI extraction loop: after the skip decision, an
existing file or directory at the RESOLVED target is force-removed, parent
directories are created, and the zip library writes the bytes at the
SANITIZED relative path — the two differ exactly on names containing `..`
or `.` segments — and that write can raise as in `zipExtractWrite`,
aborting the loop. Returns the outcome and the state left behind. -/
def gui_extract_step (locked : List String → Bool) (snapshotFile : Option String)
    (w : WorldFS) (e : ZipEntry) : Except Unit Unit × WorldFS :=
  match gui_extract_decision snapshotFile e with
  | none => (.ok (), w)
  | some tgt =>
    let w1 := if fsExists w.files tgt
      then { files := force_remove locked w.files tgt,
             rootAlive := w.rootAlive && !removesRoot locked w.files tgt }
      else w
    match zipExtractWrite w1 (zipExtractTarget e.name) e.contents with
    | .ok w2 => (.ok (), w2)
    | .error u => (.error u, w1)

/-- PHASE 2 of `apply_update` (`apply_update.py` lines 71-93, same shape in
`server/apply_update.py` lines 81-98) for one entry: skip the reserved
metadata/snapshot names; a directory entry only ensures directories exist; a
file entry force-removes an existing file or directory at the cwd-RESOLVED
target (with no path-escape check, so this can hit out-of-root paths) and
then extracts, the zip library writing the bytes at the SANITIZED relative
path, a write that can raise as in `zipExtractWrite` and abort the apply.
Returns the outcome and the state left behind. -/
def apply_extract_entry (locked : List String → Bool) (snapshotFile : String)
    (w : WorldFS) (e : ZipEntry) : Except Unit Unit × WorldFS :=
  if e.name == "update_metadata.json" || e.name == snapshotFile then (.ok (), w)
  else if strEndsWith e.name "/" then (.ok (), w)
  else
    let w1 := removeResolved locked w e.name
    match zipExtractWrite w1 (zipExtractTarget e.name) e.contents with
    | .ok w2 => (.ok (), w2)
    | .error u => (.error u, w1)

/-- The PHASE 2 loop: an extraction error propagates, aborting the apply. -/
def applyExtractAll (locked : List String → Bool) (snapshotFile : String) :
    WorldFS → List ZipEntry → Except Unit Unit × WorldFS
  | w, [] => (.ok (), w)
  | w, e :: rest =>
    match apply_extract_entry locked snapshotFile w e with
    | (.ok _, w1) => applyExtractAll locked snapshotFile w1 rest
    | (.error u, w1) => (.error u, w1)

/-! ## The update applier -/

/-- The fields of `update_metadata.json` that `apply_update` reads. -/
structure UpdateMetadata where
  to_version : String
  from_version : String
  deleted_files : List String
  deleted_dirs : List String
  added_dirs : List String
  new_pip : List String
deriving DecidableEq

/-- A parsed update package: its metadata and its archive entries. -/
structure UpdateZip where
  metadata : UpdateMetadata
  entries : List ZipEntry
deriving DecidableEq

/-- PHASE 1 over one metadata list: each listed name goes through
`abspath → exists → force_remove` (`removeResolved`). -/
def deleteListed (locked : List String → Bool)
    (w : WorldFS) (names : List String) : WorldFS :=
  names.foldl (removeResolved locked) w

/-- Join strings with newlines (the temporary requirements file's body). -/
def joinLines (ls : List String) : String :=
  ⟨joinSep '\n' (ls.map (fun s => s.data))⟩

/-- `open(path, "w")` + write: succeeds only while the working directory
still exists (after an ancestor `rmtree` it raises `FileNotFoundError`). -/
def fsWriteW (w : WorldFS) (p : List String) (contents : String) :
    Except Unit WorldFS :=
  if w.rootAlive then .ok { w with files := fsWrite w.files p contents }
  else .error ()

/-- `apply_update` of `apply_update.py` (lines 48-128) over the modeled
world. `present` models `os.path.exists` on the package path (a missing
package raises `FileNotFoundError` before any mutation); `pipOk` is the
outcome of the `pip install -r` subprocess, whose failure PHASE 4 re-raises
after its `finally` block removes the temporary requirements file; PHASE 3
(`os.makedirs` over `added_dirs`) creates directories only and leaves the
modeled file map unchanged. Returns the outcome paired with the world left
behind. -/
def apply_update (locked : List String → Bool) (present pipOk : Bool)
    (snapshotFile : String) (z : UpdateZip) (w : WorldFS) :
    Except Unit Unit × WorldFS :=
  if !present then (.error (), w)
  else
    let w2 := deleteListed locked
      (deleteListed locked w z.metadata.deleted_files) z.metadata.deleted_dirs
    match applyExtractAll locked snapshotFile w2 z.entries with
    | (.error u, w3) => (.error u, w3)
    | (.ok _, w3) =>
      if z.metadata.new_pip.isEmpty then
        match fsWriteW w3 ["version"] (z.metadata.to_version ++ "\n") with
        | .ok w6 => (.ok (), w6)
        | .error u => (.error u, w3)
      else
        match fsWriteW w3 ["temp_requirements_update.txt"]
            (joinLines z.metadata.new_pip) with
        | .error u => (.error u, w3)
        | .ok w4 =>
          let w5 := if fsExists w4.files ["temp_requirements_update.txt"]
            then { w4 with
              files := force_remove locked w4.files ["temp_requirements_update.txt"] }
            else w4
          if pipOk then
            match fsWriteW w5 ["version"] (z.metadata.to_version ++ "\n") with
            | .ok w6 => (.ok (), w6)
            | .error u => (.error u, w5)
          else (.error (), w5)

/-! ### Lookup preservation lemmas -/

theorem lookup_cons_ne {k p : List String} {v : String}
    {rest : List (List String × String)} (h : (p == k) = false) :
    List.lookup p ((k, v) :: rest) = List.lookup p rest := by
  simp [List.lookup, h]

theorem lookup_cons_self {p : List String} {v : String}
    {rest : List (List String × String)} :
    List.lookup p ((p, v) :: rest) = some v := by
  simp [List.lookup]

theorem lookup_filter_keep (p : List String)
    (pred : List String × String → Bool) (fs : List (List String × String))
    (h : ∀ c, pred (p, c) = true) :
    List.lookup p (fs.filter pred) = List.lookup p fs := by
  induction fs with
  | nil => rfl
  | cons e rest ih =>
    obtain ⟨k, v⟩ := e
    rw [List.filter_cons]
    by_cases hk : p = k
    · subst hk
      rw [h v]
      simp only [if_true]
      rw [lookup_cons_self, lookup_cons_self]
    · have hbeq : (p == k) = false := beq_eq_false_iff_ne.mpr hk
      cases hp : pred (k, v) with
      | true =>
        simp only [if_true]
        rw [lookup_cons_ne hbeq, lookup_cons_ne hbeq]
        exact ih
      | false =>
        simp only [Bool.false_eq_true, if_false]
        rw [lookup_cons_ne hbeq]
        exact ih

theorem fsWrite_lookup_self (fs : List (List String × String)) (p : List String)
    (d : String) : List.lookup p (fsWrite fs p d) = some d :=
  lookup_cons_self

theorem fsWrite_lookup_ne (fs : List (List String × String)) (p q : List String)
    (d : String) (h : p ≠ q) :
    List.lookup p (fsWrite fs q d) = List.lookup p fs := by
  rw [fsWrite, lookup_cons_ne (beq_eq_false_iff_ne.mpr h)]
  exact lookup_filter_keep p _ fs (fun c => bne_iff_ne.mpr h)

theorem fsRemoveFile_lookup_ne (fs : List (List String × String))
    (p q : List String) (h : p ≠ q) :
    List.lookup p (fsRemoveFile fs q) = List.lookup p fs :=
  lookup_filter_keep p _ fs (fun c => bne_iff_ne.mpr h)

theorem rmtree_lookup_outside (fs : List (List String × String))
    (p d : List String) (h : pathUnder d p = false) :
    List.lookup p (rmtree fs d) = List.lookup p fs :=
  lookup_filter_keep p _ fs (fun c => by simp [rmtree, h])

theorem force_remove_lookup_outside (locked : List String → Bool)
    (hl : ∀ x, locked x = false) (fs : List (List String × String))
    (q p : List String) (h : pathUnder q p = false) :
    List.lookup p (force_remove locked fs q) = List.lookup p fs := by
  have hpq : p ≠ q := by
    intro he
    subst he
    rw [pathUnder_refl] at h
    exact absurd h (by simp)
  rw [force_remove]
  by_cases hf : fsIsFile fs q = true
  · rw [hf, hl q]
    simp only [if_true, Bool.false_eq_true, if_false]
    exact fsRemoveFile_lookup_ne fs p q hpq
  · simp only [Bool.not_eq_true] at hf
    rw [hf]
    simp only [Bool.false_eq_true, if_false]
    by_cases hd : fsIsDir fs q = true
    · rw [hd]
      simp only [if_true]
      exact rmtree_lookup_outside fs p q h
    · simp only [Bool.not_eq_true] at hd
      rw [hd]
      simp

/-- A metadata or entry name whose `abspath` resolution stays inside the
root AND does not reach the version marker or a directory enclosing it.
Names resolving to an ancestor of the root — whose force-removal destroys
the whole tree, marker included — or to unknown outside locations are NOT
certified. -/
def avoidsVersion (nm : String) : Bool :=
  match resolveClimb nm with
  | some (0, q) => !pathUnder q ["version"]
  | _ => false

theorem removeResolved_lookup (locked : List String → Bool)
    (hl : ∀ x, locked x = false) (w : WorldFS) (nm : String)
    (h : avoidsVersion nm = true) :
    List.lookup ["version"] (removeResolved locked w nm).files
      = List.lookup ["version"] w.files := by
  rw [removeResolved]
  split
  · next q hr =>
    have hq : pathUnder q ["version"] = false := by
      rw [avoidsVersion, hr] at h
      simp at h
      exact h
    by_cases he : fsExists w.files q = true
    · rw [if_pos he]
      exact force_remove_lookup_outside locked hl w.files q ["version"] hq
    · rw [if_neg he]
  · next hr =>
    rw [avoidsVersion, hr] at h
    simp at h
  · rfl

theorem deleteListed_lookup (locked : List String → Bool)
    (hl : ∀ x, locked x = false) (names : List String) (w : WorldFS)
    (h : ∀ nm ∈ names, avoidsVersion nm = true) :
    List.lookup ["version"] (deleteListed locked w names).files
      = List.lookup ["version"] w.files := by
  induction names generalizing w with
  | nil => rfl
  | cons nm rest ih =>
    rw [deleteListed, List.foldl_cons, ← deleteListed]
    rw [ih (removeResolved locked w nm) (fun x hx => h x (List.mem_cons_of_mem nm hx))]
    exact removeResolved_lookup locked hl w nm (h nm (List.mem_cons_self nm rest))

theorem zipExtractWrite_ok {w w2 : WorldFS} {t : List String} {c : String}
    (h : zipExtractWrite w t c = .ok w2) :
    w2.files = fsWrite w.files t c := by
  rw [zipExtractWrite] at h
  split at h
  · exact absurd h (by simp)
  · split at h
    · exact absurd h (by simp)
    · split at h
      · exact absurd h (by simp)
      · split at h
        · exact absurd h (by simp)
        · simp only [Except.ok.injEq] at h
          subst h
          rfl

theorem fsWriteW_ok {w w2 : WorldFS} {p : List String} {c : String}
    (h : fsWriteW w p c = .ok w2) :
    w2.files = fsWrite w.files p c := by
  rw [fsWriteW] at h
  split at h
  · simp only [Except.ok.injEq] at h
    subst h
    rfl
  · exact absurd h (by simp)

theorem apply_extract_entry_lookup (locked : List String → Bool)
    (hl : ∀ x, locked x = false) (snap : String) (w : WorldFS) (e : ZipEntry)
    (ht : zipExtractTarget e.name ≠ ["version"])
    (hr : avoidsVersion e.name = true) :
    List.lookup ["version"] (apply_extract_entry locked snap w e).2.files
      = List.lookup ["version"] w.files := by
  rw [apply_extract_entry]
  by_cases h1 : (e.name == "update_metadata.json" || e.name == snap) = true
  · rw [h1]
    simp
  · simp only [Bool.not_eq_true] at h1
    rw [h1]
    simp only [Bool.false_eq_true, if_false]
    by_cases h2 : strEndsWith e.name "/" = true
    · rw [h2]
      simp
    · simp only [Bool.not_eq_true] at h2
      rw [h2]
      simp only [Bool.false_eq_true, if_false]
      have hw1 := removeResolved_lookup locked hl w e.name hr
      split
      · next w2 hz =>
        rw [zipExtractWrite_ok hz, fsWrite_lookup_ne _ _ _ _ (fun he => ht he.symm)]
        exact hw1
      · next u hz =>
        exact hw1

theorem applyExtractAll_lookup (locked : List String → Bool)
    (hl : ∀ x, locked x = false) (snap : String) (entries : List ZipEntry)
    (w : WorldFS)
    (h : ∀ e ∈ entries, zipExtractTarget e.name ≠ ["version"]
        ∧ avoidsVersion e.name = true) :
    List.lookup ["version"] (applyExtractAll locked snap w entries).2.files
      = List.lookup ["version"] w.files := by
  induction entries generalizing w with
  | nil => rfl
  | cons e rest ih =>
    simp only [applyExtractAll]
    obtain ⟨ht, hr⟩ := h e (List.mem_cons_self e rest)
    have hstep := apply_extract_entry_lookup locked hl snap w e ht hr
    split
    · next w1 hcase =>
      rw [hcase] at hstep
      simp at hstep
      rw [ih w1 (fun x hx => h x (List.mem_cons_of_mem e hx))]
      exact hstep
    · next u w1 hcase =>
      rw [hcase] at hstep
      simpa using hstep

/-- C5 counterexample: a package whose payload contains an entry at the
marker path `version` overwrites the marker during PHASE 2 (extraction); the
dependency failure in PHASE 4 then aborts the apply — the call raises before
the version-commit write, yet the marker's contents have already changed. -/
theorem version_marker_clobbered_before_commit :
    (apply_update (fun _ => false) true false "snapshot_1.json"
        ⟨⟨"2.0.0", "1.0.0", [], [], [], ["left-pad==1.0"]⟩,
         [⟨"version", "2.0.0\n"⟩]⟩
        ⟨[(["version"], "1.0.0\n")], true⟩).1 = .error ()
    ∧ List.lookup ["version"]
        (apply_update (fun _ => false) true false "snapshot_1.json"
          ⟨⟨"2.0.0", "1.0.0", [], [], [], ["left-pad==1.0"]⟩,
           [⟨"version", "2.0.0\n"⟩]⟩
          ⟨[(["version"], "1.0.0\n")], true⟩).2.files = some "2.0.0\n"
    ∧ (some "2.0.0\n" : Option String) ≠ some "1.0.0\n" := by decide

/-- C5 (amended): provided no removal hits the locked-file fallback, every
deleted file or directory resolves inside the root without reaching the
version marker or a directory enclosing it (in particular, never to the
root's ancestors, whose force-removal destroys the whole tree, marker
included, and never outside the root), and every archive entry likewise
avoids extracting at the marker path or force-removing a path enclosing it,
then a failed `apply_update` — in any phase before the version-commit
write — leaves the version marker's contents exactly as they were before the
call, and a successful one overwrites the marker with `to_version` only
after the four earlier phases complete. -/
theorem version_marker_unchanged_on_failure (locked : List String → Bool)
    (present pipOk : Bool) (snapshotFile : String) (z : UpdateZip) (w : WorldFS)
    (hl : ∀ x, locked x = false)
    (hdel : ∀ nm ∈ z.metadata.deleted_files ++ z.metadata.deleted_dirs,
        avoidsVersion nm = true)
    (hent : ∀ e ∈ z.entries, zipExtractTarget e.name ≠ ["version"]
        ∧ avoidsVersion e.name = true) :
    ((apply_update locked present pipOk snapshotFile z w).1 = .error () →
      List.lookup ["version"]
          (apply_update locked present pipOk snapshotFile z w).2.files
        = List.lookup ["version"] w.files)
    ∧ ((apply_update locked present pipOk snapshotFile z w).1 = .ok () →
      List.lookup ["version"]
          (apply_update locked present pipOk snapshotFile z w).2.files
        = some (z.metadata.to_version ++ "\n")) := by
  cases present with
  | false =>
    have happ : apply_update locked false pipOk snapshotFile z w
        = (.error (), w) := by
      simp [apply_update]
    rw [happ]
    exact ⟨fun _ => rfl, fun hok => by simp at hok⟩
  | true =>
    have hAB : List.lookup ["version"]
        (deleteListed locked (deleteListed locked w z.metadata.deleted_files)
          z.metadata.deleted_dirs).files
        = List.lookup ["version"] w.files := by
      rw [deleteListed_lookup locked hl z.metadata.deleted_dirs _
        (fun nm hnm => hdel nm (List.mem_append_right _ hnm))]
      exact deleteListed_lookup locked hl z.metadata.deleted_files w
        (fun nm hnm => hdel nm (List.mem_append_left _ hnm))
    cases hx : applyExtractAll locked snapshotFile
        (deleteListed locked (deleteListed locked w z.metadata.deleted_files)
          z.metadata.deleted_dirs) z.entries with
    | mk r w3 =>
      have hw3 : List.lookup ["version"] w3.files
          = List.lookup ["version"] w.files := by
        have hfold := applyExtractAll_lookup locked hl snapshotFile z.entries
          (deleteListed locked (deleteListed locked w z.metadata.deleted_files)
            z.metadata.deleted_dirs) hent
        rw [hx] at hfold
        simp at hfold
        exact hfold.trans hAB
      cases r with
      | error u =>
        have happ : apply_update locked true pipOk snapshotFile z w
            = (.error u, w3) := by
          simp [apply_update, hx]
        rw [happ]
        exact ⟨fun _ => hw3, fun hok => by simp at hok⟩
      | ok v =>
        cases hpip : z.metadata.new_pip.isEmpty with
        | true =>
          cases hw6 : fsWriteW w3 ["version"] (z.metadata.to_version ++ "\n") with
          | ok w6 =>
            have happ : apply_update locked true pipOk snapshotFile z w
                = (.ok (), w6) := by
              simp [apply_update, hx, hpip, hw6]
            rw [happ]
            refine ⟨fun herr => by simp at herr, fun _ => ?_⟩
            rw [fsWriteW_ok hw6]
            exact fsWrite_lookup_self _ _ _
          | error u =>
            have happ : apply_update locked true pipOk snapshotFile z w
                = (.error u, w3) := by
              simp [apply_update, hx, hpip, hw6]
            rw [happ]
            exact ⟨fun _ => hw3, fun hok => by simp at hok⟩
        | false =>
          cases hw4 : fsWriteW w3 ["temp_requirements_update.txt"]
              (joinLines z.metadata.new_pip) with
          | error u =>
            have happ : apply_update locked true pipOk snapshotFile z w
                = (.error u, w3) := by
              simp [apply_update, hx, hpip, hw4]
            rw [happ]
            exact ⟨fun _ => hw3, fun hok => by simp at hok⟩
          | ok w4 =>
            have hw4f : List.lookup ["version"] w4.files
                = List.lookup ["version"] w.files := by
              rw [fsWriteW_ok hw4, fsWrite_lookup_ne _ _ _ _ (by decide)]
              exact hw3
            have hw5 : List.lookup ["version"]
                (if fsExists w4.files ["temp_requirements_update.txt"]
                  then { w4 with files := force_remove locked w4.files ["temp_requirements_update.txt"] }
                  else w4).files
                = List.lookup ["version"] w.files := by
              split
              · show List.lookup ["version"]
                  (force_remove locked w4.files ["temp_requirements_update.txt"])
                  = List.lookup ["version"] w.files
                rw [force_remove_lookup_outside locked hl _ _ _ (by decide)]
                exact hw4f
              · exact hw4f
            cases pipOk with
            | false =>
              have happ : apply_update locked true false snapshotFile z w
                  = (.error (),
                    if fsExists w4.files ["temp_requirements_update.txt"]
                      then { w4 with files := force_remove locked w4.files ["temp_requirements_update.txt"] }
                      else w4) := by
                simp [apply_update, hx, hpip, hw4]
              rw [happ]
              exact ⟨fun _ => hw5, fun hok => by simp at hok⟩
            | true =>
              cases hw6 : fsWriteW
                  (if fsExists w4.files ["temp_requirements_update.txt"]
                    then { w4 with files := force_remove locked w4.files ["temp_requirements_update.txt"] }
                    else w4)
                  ["version"] (z.metadata.to_version ++ "\n") with
              | ok w6 =>
                have happ : apply_update locked true true snapshotFile z w
                    = (.ok (), w6) := by
                  simp [apply_update, hx, hpip, hw4, hw6]
                rw [happ]
                refine ⟨fun herr => by simp at herr, fun _ => ?_⟩
                rw [fsWriteW_ok hw6]
                exact fsWrite_lookup_self _ _ _
              | error u =>
                have happ : apply_update locked true true snapshotFile z w
                    = (.error u,
                      if fsExists w4.files ["temp_requirements_update.txt"]
                        then { w4 with files := force_remove locked w4.files ["temp_requirements_update.txt"] }
                        else w4) := by
                  simp [apply_update, hx, hpip, hw4, hw6]
                rw [happ]
                exact ⟨fun _ => hw5, fun hok => by simp at hok⟩

/-- Witness for `version_marker_unchanged_on_failure`: a package that deletes
`old.txt`, ships `new.txt` and upgrades one dependency; the pip failure
aborts the apply and the marker still reads `1.0.0`. -/
theorem version_marker_unchanged_on_failure_witness :
    List.lookup ["version"]
        (apply_update (fun _ => false) true false "snapshot_1.json"
          ⟨⟨"2.0.0", "1.0.0", ["old.txt"], [], ["newdir"], ["left-pad==1.0"]⟩,
           [⟨"new.txt", "N"⟩]⟩
          ⟨[(["version"], "1.0.0\n"), (["old.txt"], "O")], true⟩).2.files
      = List.lookup ["version"] [(["version"], "1.0.0\n"), (["old.txt"], "O")] :=
  (version_marker_unchanged_on_failure (fun _ => false) true false "snapshot_1.json"
    ⟨⟨"2.0.0", "1.0.0", ["old.txt"], [], ["newdir"], ["left-pad==1.0"]⟩,
     [⟨"new.txt", "N"⟩]⟩
    ⟨[(["version"], "1.0.0\n"), (["old.txt"], "O")], true⟩
    (fun _ => rfl) (by decide) (by decide)).1 (by decide)

/-! ## Path-escape handling -/

theorem gui_decision_skips_escape (snapshotFile : Option String)
    (e : ZipEntry) (h : resolveUnderCwd e.name = none) :
    gui_extract_decision snapshotFile e = none := by
  rw [gui_extract_decision]
  by_cases h1 : (e.name == "update_metadata.json"
      || e.name == snapshotFile.getD "") = true
  · rw [h1]; simp
  · simp only [Bool.not_eq_true] at h1
    rw [h1]
    simp only [Bool.false_eq_true, if_false]
    by_cases h2 : (pathlibParts e.name).any
        (fun part => strStartsWith part "." && part != "." && part != "..") = true
    · rw [h2]; simp
    · simp only [Bool.not_eq_true] at h2
      rw [h2]
      simp only [Bool.false_eq_true, if_false, h]

theorem zipExtractTarget_clean (nm : String) :
    ∀ c ∈ zipExtractTarget nm, c ≠ ".." ∧ c ≠ "" ∧ c ≠ "." := by
  intro c hc
  rw [zipExtractTarget, List.mem_filter] at hc
  obtain ⟨-, hpred⟩ := hc
  simp only [Bool.and_eq_true, bne_iff_ne] at hpred
  exact ⟨hpred.2, hpred.1.1, hpred.1.2⟩

/-- C1 (amended): how each applier treats archive entries. In the GUI applier
(`on_zip_downloaded`), an entry whose resolved target escapes the destination
root is skipped — nothing is written for it and the loop continues — and a
loop step that completes without raising either skipped its entry (reserved
name, hidden dot-initial component, escape, or directory entry) or wrote the
entry's bytes at the zip library's sanitized relative path; every file entry
that is not reserved, has no hidden component and resolves inside the root is
attempted (its write can still raise on a collision with an existing
directory or a file on the parent chain, aborting that apply attempt). The
standalone `apply_update.py` appliers perform no escape check: no entry is
ever skipped for escaping — the resolved (possibly out-of-root) target is
force-removed when it exists — and a completed phase-2 step on a
non-reserved file entry always wrote the bytes at the sanitized path, whose
components never include an ancestor-escaping `..` (nor an empty or `.`)
segment, so the bytes always land inside the root. -/
theorem path_escape_handling (snapshotFile : Option String)
    (locked : List String → Bool) (snap : String)
    (w w2 : WorldFS) (e : ZipEntry) :
    (resolveUnderCwd e.name = none →
      gui_extract_decision snapshotFile e = none
      ∧ gui_extract_step locked snapshotFile w e = (.ok (), w))
    ∧ (gui_extract_step locked snapshotFile w e = (.ok (), w2) →
        (gui_extract_decision snapshotFile e = none ∧ w2 = w)
        ∨ List.lookup (zipExtractTarget e.name) w2.files = some e.contents)
    ∧ ((e.name == "update_metadata.json" || e.name == snapshotFile.getD "") = false →
        (pathlibParts e.name).any
          (fun part => strStartsWith part "." && part != "." && part != "..") = false →
        ∀ t, resolveUnderCwd e.name = some t →
        strEndsWith e.name "/" = false →
        gui_extract_decision snapshotFile e = some t)
    ∧ ((e.name == "update_metadata.json" || e.name == snap) = false →
        strEndsWith e.name "/" = false →
        apply_extract_entry locked snap w e = (.ok (), w2) →
        List.lookup (zipExtractTarget e.name) w2.files = some e.contents)
    ∧ (∀ c ∈ zipExtractTarget e.name, c ≠ ".." ∧ c ≠ "" ∧ c ≠ ".") := by
  refine ⟨?_, ?_, ?_, ?_, zipExtractTarget_clean e.name⟩
  · intro h
    have hd := gui_decision_skips_escape snapshotFile e h
    refine ⟨hd, ?_⟩
    rw [gui_extract_step, hd]
  · intro hstep
    rw [gui_extract_step] at hstep
    cases hd : gui_extract_decision snapshotFile e with
    | none =>
      rw [hd] at hstep
      simp only [Prod.mk.injEq] at hstep
      exact Or.inl ⟨rfl, hstep.2.symm⟩
    | some tgt =>
      rw [hd] at hstep
      simp only at hstep
      right
      cases hz : zipExtractWrite
          (if fsExists w.files tgt
            then { files := force_remove locked w.files tgt,
                   rootAlive := w.rootAlive && !removesRoot locked w.files tgt }
            else w)
          (zipExtractTarget e.name) e.contents with
      | ok wz =>
        rw [hz] at hstep
        simp only [Prod.mk.injEq] at hstep
        rw [← hstep.2, zipExtractWrite_ok hz]
        exact fsWrite_lookup_self _ _ _
      | error u =>
        rw [hz] at hstep
        simp at hstep
  · intro h1 h2 t ht h3
    rw [gui_extract_decision, h1]
    simp only [Bool.false_eq_true, if_false]
    rw [h2]
    simp only [Bool.false_eq_true, if_false, ht, h3]
  · intro h1 h2 hstep
    rw [apply_extract_entry, h1] at hstep
    simp only [Bool.false_eq_true, if_false] at hstep
    rw [h2] at hstep
    simp only [Bool.false_eq_true, if_false] at hstep
    cases hz : zipExtractWrite (removeResolved locked w e.name)
        (zipExtractTarget e.name) e.contents with
    | ok wz =>
      rw [hz] at hstep
      simp only [Prod.mk.injEq] at hstep
      rw [← hstep.2, zipExtractWrite_ok hz]
      exact fsWrite_lookup_self _ _ _
    | error u =>
      rw [hz] at hstep
      simp at hstep

/-- C1 counterexample: `apply_update.py` writes the bytes of an entry whose
path escapes the destination root (at the in-root path left after the zip
library strips the `..` segment) instead of rejecting it, and the GUI
applier skips the non-reserved entry `.git/config` — which resolves INSIDE
the root — merely because it lies in a hidden directory; so neither half of
the claim holds as stated across the appliers. -/
theorem path_escape_claim_false :
    (apply_extract_entry (fun _ => false) "snapshot_1.json" ⟨[], true⟩
        ⟨"../evil.txt", "X"⟩).1 = .ok ()
    ∧ List.lookup ["evil.txt"]
        (apply_extract_entry (fun _ => false) "snapshot_1.json" ⟨[], true⟩
          ⟨"../evil.txt", "X"⟩).2.files = some "X"
    ∧ resolveUnderCwd "../evil.txt" = none
    ∧ gui_extract_decision none ⟨".git/config", "Y"⟩ = none
    ∧ resolveUnderCwd ".git/config" = some [".git", "config"] := by decide

/-- Witness for `path_escape_handling`: the escaping entry `../evil.txt` is
skipped by the GUI applier with nothing written, the plain entry
`sub/ok.txt` is attempted and, its step completing, extracted at its own
path by both appliers. -/
theorem path_escape_handling_witness :
    (gui_extract_decision none ⟨"../evil.txt", "X"⟩ = none
      ∧ gui_extract_step (fun _ => false) none ⟨[], true⟩ ⟨"../evil.txt", "X"⟩
          = (.ok (), ⟨[], true⟩))
    ∧ gui_extract_decision none ⟨"sub/ok.txt", "Z"⟩ = some ["sub", "ok.txt"]
    ∧ List.lookup (zipExtractTarget "sub/ok.txt")
        (⟨[(["sub", "ok.txt"], "Z")], true⟩ : WorldFS).files = some "Z" :=
  ⟨(path_escape_handling none (fun _ => false) "snapshot_1.json" ⟨[], true⟩
      ⟨[], true⟩ ⟨"../evil.txt", "X"⟩).1 (by decide),
   (path_escape_handling none (fun _ => false) "snapshot_1.json" ⟨[], true⟩
      ⟨[], true⟩ ⟨"sub/ok.txt", "Z"⟩).2.2.1 (by decide) (by decide)
      ["sub", "ok.txt"] (by decide) (by decide),
   (path_escape_handling none (fun _ => false) "snapshot_1.json" ⟨[], true⟩
      ⟨[(["sub", "ok.txt"], "Z")], true⟩ ⟨"sub/ok.txt", "Z"⟩).2.2.2.1
      (by decide) (by decide) (by decide)⟩

end UpdaterZero
